import Mathlib

/-!
ListInterface, ArrayList and LinkedList (main.cpp)

A shallow embedding of the two list classes of `main.cpp`. `LinkedList<ItemType>` is taken at
`ItemType = int`. `ArrayList<T, N>` keeps its elements in `int items[N]` whatever `T` is, so
its state is the same for every `T`; `insert` and `setEntry` take a `const T &` and convert
it to `int` on the store, which the embedding keeps as the conversion `Elem.toInt`.

* C++ `int` positions, counters and slots are `Int`. The only arithmetic
  on them is `itemCount + 1`, `itemCount - 1` and `position - 1` on values between the
  argument and the element count, so no wrap-around is modelled.
* The storage block `int items[N]` is a `List Int` of `N` slots; every slot access is
  bounds-checked and an access outside `[0, N)` is the fault `Fault.outOfBounds`.
* The free store is a `List (Option Node)` addressed by `Nat`; a pointer is an
  `Option Nat` (`none` is `nullptr`). Dereferencing `nullptr` or a dead cell is a fault.
* A method returns an `Outcome`: a normal return with the value and the state after the
  call, a thrown `std::invalid_argument` with the state at the throw, or a fault
  (failed `assert`, invalid memory access).
* Loops are recursive functions over a step budget that the caller sets to the trip count
  of the loop; running out of budget while the loop guard still holds is `Fault.fuel`.
-/

namespace Lab3

/-- Erroneous executions: a failed `assert`, a null or dangling pointer dereference,
an array access outside the storage block, an exhausted step budget. -/
inductive Fault where
  | assertion
  | nullDeref
  | danglingDeref
  | outOfBounds
  | fuel
  deriving DecidableEq, Repr

/-- Result of a method call on a state of type `σ` returning an `α`. -/
inductive Outcome (σ α : Type) where
  | ok (value : α) (state : σ)
  | invalidArgument (message : String) (state : σ)
  | fault (f : Fault)
  deriving DecidableEq, Repr

/-- Embeds `constexpr int MIN_ARRAY_SIZE = 64;` -/
def MIN_ARRAY_SIZE : Nat := 64

/-! ## PART 1: ArrayList -/

/-- An element type `T` the template `ArrayList<T, N>` can be used at: `toInt` is the
implicit conversion from `T` to `int` that the assignments `items[newPosition - 1] = newEntry`
and `items[position - 1] = newEntry` apply to a `const T &newEntry`. -/
class Elem (T : Type) where
  toInt : T → Int

/-- The element type `int`: nothing is converted. -/
instance instElemInt : Elem Int where
  toInt := fun v => v

/-- A finite `double` with the value `mantissa / 2 ^ exponent`; 2.5 is `5 / 2 ^ 1`. -/
structure Dbl where
  mantissa : Int
  exponent : Nat
  deriving DecidableEq, Repr

/-- The number a `Dbl` stands for. -/
def Dbl.toRat (d : Dbl) : ℚ :=
  (d.mantissa : ℚ) / 2 ^ d.exponent

/-- The element type `double`: the conversion to `int` discards the fractional part
(truncation toward zero); it is defined in C++ when the truncated value fits an `int`. -/
instance instElemDbl : Elem Dbl where
  toInt := fun d => Int.tdiv d.mantissa (2 ^ d.exponent)

/-- Embeds `items[i]` as an rvalue. -/
def readSlot (items : List Int) (i : Int) : Except Fault Int :=
  if 0 ≤ i ∧ i < items.length then .ok (items.getD i.toNat 0) else .error .outOfBounds

/-- Embeds `items[i] = v`. -/
def writeSlot (items : List Int) (i : Int) (v : Int) : Except Fault (List Int) :=
  if 0 ≤ i ∧ i < items.length then .ok (items.set i.toNat v) else .error .outOfBounds

/-- Embeds `template<typename T, int N> class ArrayList` at `T = int`: the fields
`int itemCount; int maxItems; int items[N]{};`. -/
structure ArrayList (N : Nat) where
  itemCount : Int
  maxItems : Int
  items : List Int
  deriving DecidableEq, Repr

namespace ArrayList

variable {N : Nat}

/-- Embeds `ArrayList() : itemCount(0), maxItems(N)` with the value-initialised block `items[N]{}`. -/
def new (N : Nat) : ArrayList N :=
  { itemCount := 0, maxItems := N, items := List.replicate N 0 }

/-- Class invariant: the block has `N` slots, `maxItems == N`, `0 <= itemCount <= maxItems`. -/
def wf (a : ArrayList N) : Prop :=
  a.items.length = N ∧ a.maxItems = N ∧ 0 ≤ a.itemCount ∧ a.itemCount ≤ a.maxItems

instance (a : ArrayList N) : Decidable a.wf := by
  unfold wf; infer_instance

/-- The logical sequence: slots `[0, itemCount)`. -/
def toSeq (a : ArrayList N) : List Int :=
  a.items.take a.itemCount.toNat

/-- Embeds `bool isEmpty() const`. -/
def isEmpty (a : ArrayList N) : Bool :=
  decide (a.itemCount = 0)

/-- Embeds `int getLength() const`. -/
def getLength (a : ArrayList N) : Int :=
  a.itemCount

/-- The loop `for (int pos = itemCount; pos >= newPosition; pos--) items[pos] = items[pos - 1];`
entered with the current `pos`. -/
def insertLoop (newPosition : Int) : Nat → Int → List Int → Except Fault (List Int)
  | fuel, pos, items =>
    if pos ≥ newPosition then
      match fuel with
      | 0 => .error .fuel
      | fuel + 1 =>
        match readSlot items (pos - 1) with
        | .error e => .error e
        | .ok x =>
          match writeSlot items pos x with
          | .error e => .error e
          | .ok items1 => insertLoop newPosition fuel (pos - 1) items1
    else .ok items

/-- Embeds `bool insert(int newPosition, const T &newEntry)`. -/
def insert {T : Type} [Elem T] (a : ArrayList N) (newPosition : Int) (newEntry : T) :
    Outcome (ArrayList N) Bool :=
  let ableToInsert := decide (newPosition ≥ 1) &&
                      decide (newPosition ≤ a.itemCount + 1) &&
                      decide (a.itemCount < a.maxItems)
  if ableToInsert then
    match insertLoop newPosition (a.itemCount + 1 - newPosition).toNat a.itemCount a.items with
    | .error e => .fault e
    | .ok items1 =>
      match writeSlot items1 (newPosition - 1) (Elem.toInt newEntry) with
      | .error e => .fault e
      | .ok items2 =>
        .ok ableToInsert { a with items := items2, itemCount := a.itemCount + 1 }
  else .ok ableToInsert a

/-- The loop `for (int fromIndex = position, toIndex = fromIndex - 1; fromIndex < itemCount;
fromIndex++, toIndex++) items[toIndex] = items[fromIndex];` entered with the current indices. -/
def removeLoop (itemCount : Int) : Nat → Int → Int → List Int → Except Fault (List Int)
  | fuel, fromIndex, toIndex, items =>
    if fromIndex < itemCount then
      match fuel with
      | 0 => .error .fuel
      | fuel + 1 =>
        match readSlot items fromIndex with
        | .error e => .error e
        | .ok x =>
          match writeSlot items toIndex x with
          | .error e => .error e
          | .ok items1 => removeLoop itemCount fuel (fromIndex + 1) (toIndex + 1) items1
    else .ok items

/-- Embeds `bool remove(int position)`. -/
def remove (a : ArrayList N) (position : Int) : Outcome (ArrayList N) Bool :=
  let ableToRemove := decide (position ≥ 1) && decide (position ≤ a.itemCount)
  if ableToRemove then
    match removeLoop a.itemCount (a.itemCount - position).toNat position (position - 1)
        a.items with
    | .error e => .fault e
    | .ok items1 => .ok ableToRemove { a with items := items1, itemCount := a.itemCount - 1 }
  else .ok ableToRemove a

/-- Embeds `void clear()`. -/
def clear (a : ArrayList N) : Outcome (ArrayList N) Unit :=
  .ok () { a with itemCount := 0 }

/-- Embeds `T getEntry(int position) const`. The value returned is the `int` slot
`items[position - 1]`, which the source hands back converted to `T`. -/
def getEntry (a : ArrayList N) (position : Int) : Outcome (ArrayList N) Int :=
  let ableToGet := decide (position ≥ 1) && decide (position ≤ a.itemCount)
  if ableToGet then
    match readSlot a.items (position - 1) with
    | .error e => .fault e
    | .ok x => .ok x a
  else
    .invalidArgument ("getEntry() called with an empty list or " ++ "invalid position.") a

/-- Embeds `void setEntry(int position, const T &newEntry)`. -/
def setEntry {T : Type} [Elem T] (a : ArrayList N) (position : Int) (newEntry : T) :
    Outcome (ArrayList N) Unit :=
  let ableToSet := decide (position ≥ 1) && decide (position ≤ a.itemCount)
  if ableToSet then
    match writeSlot a.items (position - 1) (Elem.toInt newEntry) with
    | .error e => .fault e
    | .ok items1 => .ok () { a with items := items1 }
  else
    .invalidArgument ("setEntry() called with an empty list or " ++ "invalid position.") a

end ArrayList

/-! ## PART 1: LinkedList -/

/-- Embeds `template<typename T> class Node` at `T = int`: the fields `T value; Node *next;`. -/
structure Node where
  value : Int
  next : Option Nat
  deriving DecidableEq, Repr

/-- The free store: cell `a` holds a live node, or `none` when it was deleted. -/
abbrev Heap := List (Option Node)

namespace Heap

/-- Embeds `new Node<ItemType>(...)`: the node is placed in a fresh cell, whose address is returned. -/
def alloc (h : Heap) (nd : Node) : Heap × Option Nat :=
  (h ++ [some nd], some h.length)

/-- Embeds `*p` for a node pointer `p`. -/
def deref (h : Heap) : Option Nat → Except Fault Node
  | none => .error .nullDeref
  | some a =>
    match h[a]? with
    | some (some nd) => .ok nd
    | _ => .error .danglingDeref

/-- Embeds `*p = nd` for a node pointer `p` to a live node. -/
def store (h : Heap) (p : Option Nat) (nd : Node) : Except Fault Heap :=
  match p with
  | none => .error .nullDeref
  | some a =>
    match h[a]? with
    | some (some _) => .ok (h.set a (some nd))
    | _ => .error .danglingDeref

/-- Embeds `delete p`; deleting `nullptr` does nothing. -/
def free (h : Heap) : Option Nat → Except Fault Heap
  | none => .ok h
  | some a =>
    match h[a]? with
    | some (some _) => .ok (h.set a none)
    | _ => .error .danglingDeref

end Heap

namespace Node

/-- Embeds `Node(T value) : value(value), next(nullptr)`. -/
def create (value : Int) : Node :=
  { value := value, next := none }

/-- Embeds `p->getItem()`. -/
def getItem (h : Heap) (p : Option Nat) : Except Fault Int :=
  match h.deref p with
  | .error e => .error e
  | .ok nd => .ok nd.value

/-- Embeds `p->getNext()`. -/
def getNext (h : Heap) (p : Option Nat) : Except Fault (Option Nat) :=
  match h.deref p with
  | .error e => .error e
  | .ok nd => .ok nd.next

/-- Embeds `p->setNext(n)`. -/
def setNext (h : Heap) (p : Option Nat) (n : Option Nat) : Except Fault Heap :=
  match h.deref p with
  | .error e => .error e
  | .ok nd => h.store p { nd with next := n }

/-- Embeds `p->setItem(v)`. -/
def setItem (h : Heap) (p : Option Nat) (v : Int) : Except Fault Heap :=
  match h.deref p with
  | .error e => .error e
  | .ok nd => h.store p { nd with value := v }

end Node

/-- Embeds `template<class ItemType> class LinkedList` at `ItemType = int`: the fields
`Node<ItemType> *headPtr; int itemCount;`, together with the free store its nodes live in. -/
structure LinkedList where
  heap : Heap
  headPtr : Option Nat
  itemCount : Int
  deriving DecidableEq, Repr

namespace LinkedList

/-- Embeds `LinkedList() : headPtr(nullptr), itemCount(0)`. -/
def new : LinkedList :=
  { heap := [], headPtr := none, itemCount := 0 }

/-- The values of a null-terminated chain of exactly `n` live nodes starting at `p`. -/
def chainFrom (h : Heap) : Nat → Option Nat → Option (List Int)
  | 0, none => some []
  | 0, some _ => none
  | _ + 1, none => none
  | n + 1, some a =>
    match h[a]? with
    | some (some nd) =>
      match chainFrom h n nd.next with
      | some s => some (nd.value :: s)
      | none => none
    | _ => none

/-- The logical sequence: the values along the chain from `headPtr`, provided that chain is
null-terminated and has exactly `itemCount` live nodes. -/
def toSeq (l : LinkedList) : Option (List Int) :=
  if 0 ≤ l.itemCount then chainFrom l.heap l.itemCount.toNat l.headPtr else none

/-- Class invariant: the chain from `headPtr` is null-terminated and has exactly `itemCount`
nodes. -/
def wf (l : LinkedList) : Prop :=
  l.toSeq.isSome = true

instance (l : LinkedList) : Decidable l.wf := by
  unfold wf; infer_instance

/-- The nodes `(address, value)` visited from `p` along `next` links until the link `q`. -/
def isSeg (h : Heap) : Option Nat → List (Nat × Int) → Option Nat → Prop
  | p, [], q => p = q
  | p, c :: cs, q => p = some c.1 ∧ ∃ nx, h[c.1]? = some (some ⟨c.2, nx⟩) ∧ isSeg h nx cs q

/-- Embeds `bool isEmpty() const`. -/
def isEmpty (l : LinkedList) : Bool :=
  decide (l.itemCount = 0)

/-- Embeds `int getLength() const`. -/
def getLength (l : LinkedList) : Int :=
  l.itemCount

/-- The loop `for (int skip = 1; skip < position; skip++) curPtr = curPtr->getNext();`
entered with the current `skip` and `curPtr`. -/
def getNodeAtLoop (h : Heap) (position : Int) :
    Nat → Int → Option Nat → Except Fault (Option Nat)
  | fuel, skip, curPtr =>
    if skip < position then
      match fuel with
      | 0 => .error .fuel
      | fuel + 1 =>
        match Node.getNext h curPtr with
        | .error e => .error e
        | .ok nx => getNodeAtLoop h position fuel (skip + 1) nx
    else .ok curPtr

/-- Embeds `Node<ItemType> *getNodeAt(int position) const`, with its `assert` active. -/
def getNodeAt (l : LinkedList) (position : Int) : Except Fault (Option Nat) :=
  if position ≥ 1 ∧ position ≤ l.itemCount then
    getNodeAtLoop l.heap position (position - 1).toNat 1 l.headPtr
  else .error .assertion

/-- Embeds `bool insert(int newPosition, const ItemType &newEntry)`. -/
def insert (l : LinkedList) (newPosition : Int) (newEntry : Int) : Outcome LinkedList Bool :=
  let ableToInsert := decide (newPosition ≥ 1) && decide (newPosition ≤ l.itemCount + 1)
  if ableToInsert then
    let (h1, newNodePtr) := l.heap.alloc (Node.create newEntry)
    if newPosition = 1 then
      match Node.setNext h1 newNodePtr l.headPtr with
      | .error e => .fault e
      | .ok h2 =>
        .ok ableToInsert { heap := h2, headPtr := newNodePtr, itemCount := l.itemCount + 1 }
    else
      match getNodeAt { l with heap := h1 } (newPosition - 1) with
      | .error e => .fault e
      | .ok prevPtr =>
        match Node.getNext h1 prevPtr with
        | .error e => .fault e
        | .ok nx =>
          match Node.setNext h1 newNodePtr nx with
          | .error e => .fault e
          | .ok h2 =>
            match Node.setNext h2 prevPtr newNodePtr with
            | .error e => .fault e
            | .ok h3 =>
              .ok ableToInsert
                { heap := h3, headPtr := l.headPtr, itemCount := l.itemCount + 1 }
  else .ok ableToInsert l

/-- The end of `remove`: `curPtr->setNext(nullptr); delete curPtr; curPtr = nullptr;
itemCount--;`. -/
def releaseNode (l : LinkedList) (curPtr : Option Nat) : Except Fault LinkedList :=
  match Node.setNext l.heap curPtr none with
  | .error e => .error e
  | .ok h1 =>
    match Heap.free h1 curPtr with
    | .error e => .error e
    | .ok h2 => .ok { l with heap := h2, itemCount := l.itemCount - 1 }

/-- Embeds `bool remove(int position)`. -/
def remove (l : LinkedList) (position : Int) : Outcome LinkedList Bool :=
  let ableToRemove := decide (position ≥ 1) && decide (position ≤ l.itemCount)
  if ableToRemove then
    if position = 1 then
      match Node.getNext l.heap l.headPtr with
      | .error e => .fault e
      | .ok nx =>
        match releaseNode { l with headPtr := nx } l.headPtr with
        | .error e => .fault e
        | .ok l1 => .ok ableToRemove l1
    else
      match getNodeAt l (position - 1) with
      | .error e => .fault e
      | .ok prevPtr =>
        match Node.getNext l.heap prevPtr with
        | .error e => .fault e
        | .ok curPtr =>
          match Node.getNext l.heap curPtr with
          | .error e => .fault e
          | .ok nx =>
            match Node.setNext l.heap prevPtr nx with
            | .error e => .fault e
            | .ok h1 =>
              match releaseNode { l with heap := h1 } curPtr with
              | .error e => .fault e
              | .ok l1 => .ok ableToRemove l1
  else .ok ableToRemove l

/-- The loop `while (!isEmpty()) remove(1);`. -/
def clearLoop : Nat → LinkedList → Outcome LinkedList Unit
  | fuel, l =>
    if !l.isEmpty then
      match fuel with
      | 0 => .fault .fuel
      | fuel + 1 =>
        match l.remove 1 with
        | .ok _ l1 => clearLoop fuel l1
        | .invalidArgument m l1 => .invalidArgument m l1
        | .fault e => .fault e
    else .ok () l

/-- Embeds `void clear()`. -/
def clear (l : LinkedList) : Outcome LinkedList Unit :=
  clearLoop l.itemCount.toNat l

/-- Embeds `ItemType getEntry(int position) const`. -/
def getEntry (l : LinkedList) (position : Int) : Outcome LinkedList Int :=
  let ableToGet := decide (position ≥ 1) && decide (position ≤ l.itemCount)
  if ableToGet then
    match getNodeAt l position with
    | .error e => .fault e
    | .ok nodePtr =>
      match Node.getItem l.heap nodePtr with
      | .error e => .fault e
      | .ok x => .ok x l
  else
    .invalidArgument ("getEntry() called with an empty list or " ++ "invalid position.") l

/-- Embeds `void setEntry(int position, const ItemType &newEntry)`. -/
def setEntry (l : LinkedList) (position : Int) (newEntry : Int) : Outcome LinkedList Unit :=
  match getNodeAt l position with
  | .error e => .fault e
  | .ok n =>
    match Node.setItem l.heap n newEntry with
    | .error e => .fault e
    | .ok h1 => .ok () { l with heap := h1 }

end LinkedList

namespace LinkedList

/-- The helper `getNodeAt` as compiled with `NDEBUG`: the `assert` is removed. -/
def getNodeAtNoAssert (l : LinkedList) (position : Int) : Except Fault (Option Nat) :=
  getNodeAtLoop l.heap position (position - 1).toNat 1 l.headPtr

/-- The method `setEntry` as compiled with `NDEBUG`. -/
def setEntryNoAssert (l : LinkedList) (position : Int) (newEntry : Int) :
    Outcome LinkedList Unit :=
  match getNodeAtNoAssert l position with
  | .error e => .fault e
  | .ok n =>
    match Node.setItem l.heap n newEntry with
    | .error e => .fault e
    | .ok h1 => .ok () { l with heap := h1 }

end LinkedList

/-! ## PART 2: insertionSort and isSorted -/

/-- Embeds `template<typename ItemType> void insertionSort(ListInterface<ItemType> & list)`,
whose whole body is the comment `// TODO`: the call returns and the list is as it came. -/
def insertionSort {σ : Type} (list : σ) : Outcome σ Unit :=
  .ok () list

/-- The loop `for(int i=1; i<n; ++i) if(list.getEntry(i) > list.getEntry(i+1)) return false;`
of `isSorted`, entered with the current `i`, followed by the final `return true;`. -/
def isSortedLoop (list : LinkedList) (n : Int) : Nat → Int → Outcome LinkedList Bool
  | fuel, i =>
    if i < n then
      match fuel with
      | 0 => .fault .fuel
      | fuel + 1 =>
        match list.getEntry i with
        | .invalidArgument m s => .invalidArgument m s
        | .fault e => .fault e
        | .ok x _ =>
          match list.getEntry (i + 1) with
          | .invalidArgument m s => .invalidArgument m s
          | .fault e => .fault e
          | .ok y _ =>
            if x > y then .ok false list else isSortedLoop list n fuel (i + 1)
    else .ok true list

/-- Embeds `bool isSorted(const LinkedList<int> & list)`. -/
def isSorted (list : LinkedList) : Outcome LinkedList Bool :=
  let n := list.getLength
  if n ≤ 1 then .ok true list
  else isSortedLoop list n (n - 1).toNat 1

/-! ## Callers of the list contract -/

/-- The call ended without a fault, by a normal return or by a throw, in a state
satisfying `P`. -/
def Outcome.endsIn {σ α : Type} (P : σ → Prop) : Outcome σ α → Prop
  | .ok _ s => P s
  | .invalidArgument _ s => P s
  | .fault _ => False

/-- The scenario "insert each value at position 1": `insert(1, v)` for every `v` of the list
in turn, as `fillRandom` does; it stops at the first call that does not return true. -/
def ArrayList.insertEachAtFront {N : Nat} {T : Type} [Elem T] (a : ArrayList N) :
    List T → Outcome (ArrayList N) Bool
  | [] => .ok true a
  | v :: vs =>
    match a.insert 1 v with
    | .ok true a1 => insertEachAtFront a1 vs
    | other => other

/-- A call of one method of `ListInterface<int>`. -/
inductive Op where
  | isEmpty
  | getLength
  | insert (newPosition : Int) (newEntry : Int)
  | remove (position : Int)
  | clear
  | getEntry (position : Int)
  | setEntry (position : Int) (newEntry : Int)
  deriving DecidableEq, Repr

/-- What the caller of a method observes: the returned value, a caught
`std::invalid_argument` with its message, or a fault. -/
inductive Obs where
  | bool (b : Bool)
  | int (n : Int)
  | unit
  | invalidArgument (message : String)
  | fault (f : Fault)
  deriving DecidableEq, Repr

/-- The observation and the state after a call; after a fault the state `old` stands in. -/
def Outcome.observe {σ α : Type} (wrap : α → Obs) (old : σ) : Outcome σ α → Obs × σ
  | .ok x s => (wrap x, s)
  | .invalidArgument m s => (.invalidArgument m, s)
  | .fault f => (.fault f, old)

/-- One call on an ArrayList through the interface. -/
def ArrayList.step {N : Nat} (a : ArrayList N) : Op → Obs × ArrayList N
  | .isEmpty => (.bool a.isEmpty, a)
  | .getLength => (.int a.getLength, a)
  | .insert p v => (a.insert p v).observe .bool a
  | .remove p => (a.remove p).observe .bool a
  | .clear => a.clear.observe (fun _ => .unit) a
  | .getEntry p => (a.getEntry p).observe .int a
  | .setEntry p v => (a.setEntry p v).observe (fun _ => .unit) a

/-- One call on a LinkedList through the interface. -/
def LinkedList.step (l : LinkedList) : Op → Obs × LinkedList
  | .isEmpty => (.bool l.isEmpty, l)
  | .getLength => (.int l.getLength, l)
  | .insert p v => (l.insert p v).observe .bool l
  | .remove p => (l.remove p).observe .bool l
  | .clear => l.clear.observe (fun _ => .unit) l
  | .getEntry p => (l.getEntry p).observe .int l
  | .setEntry p v => (l.setEntry p v).observe (fun _ => .unit) l

/-- A sequence of calls on an ArrayList: the observations in order and the final state. -/
def ArrayList.run {N : Nat} (a : ArrayList N) : List Op → List Obs × ArrayList N
  | [] => ([], a)
  | op :: ops => ((a.step op).1 :: (run (a.step op).2 ops).1, (run (a.step op).2 ops).2)

/-- A sequence of calls on a LinkedList: the observations in order and the final state. -/
def LinkedList.run (l : LinkedList) : List Op → List Obs × LinkedList
  | [] => ([], l)
  | op :: ops => ((l.step op).1 :: (run (l.step op).2 ops).1, (run (l.step op).2 ops).2)

/-- The calls the comparison of the two backings admits when the list has `len` elements
and the bounded variant has capacity `cap`: an `insert` only below capacity, a `setEntry`
only at a valid position. -/
def Op.allowed (len cap : Int) : Op → Bool
  | .insert _ _ => decide (len < cap)
  | .setEntry p _ => decide (1 ≤ p) && decide (p ≤ len)
  | _ => true

/-- Every call of the sequence is allowed at the length the list has when it is made. -/
def ArrayList.admissible {N : Nat} (a : ArrayList N) : List Op → Bool
  | [] => true
  | op :: ops => op.allowed a.getLength N && admissible (a.step op).2 ops

/-! ## Sample states -/

/-- A bounded list of capacity 64 holding the sequence `[30, 10]`. -/
def ArrayList.sample : ArrayList 64 :=
  { itemCount := 2, maxItems := 64, items := [30, 10] ++ List.replicate 62 0 }

/-- A chained list holding the sequence `[30, 20, 10]`, built by three calls `insert(1, _)`. -/
def LinkedList.sample : LinkedList :=
  { heap := [some ⟨10, none⟩, some ⟨20, some 0⟩, some ⟨30, some 1⟩],
    headPtr := some 2, itemCount := 3 }

/-! ## ArrayList: loop lemmas -/

theorem readSlot_ok (items : List Int) (j : Nat) (h : j < items.length) :
    readSlot items (j : Int) = .ok (items.getD j 0) := by
  have h2 : ((j : Int) < (items.length : Int)) := by exact_mod_cast h
  simp [readSlot, h2]

theorem writeSlot_ok (items : List Int) (j : Nat) (v : Int) (h : j < items.length) :
    writeSlot items (j : Int) v = .ok (items.set j v) := by
  have h2 : ((j : Int) < (items.length : Int)) := by exact_mod_cast h
  simp [writeSlot, h2]

theorem getD_eq_of_getElem? (items : List Int) (j : Nat) (h : j < items.length) :
    some (items.getD j 0) = items[j]? := by
  simp [List.getD, List.getElem?_eq_getElem h]

theorem ArrayList.insertLoop_spec (k : Nat) :
    ∀ (d : Nat) (items : List Int), k + d < items.length →
      ∃ items1, ArrayList.insertLoop ((k : Int) + 1) d ((k + d : Nat) : Int) items = .ok items1 ∧
        items1.length = items.length ∧
        ∀ i : Nat, items1[i]? = if k < i ∧ i ≤ k + d then items[i - 1]? else items[i]? := by
  intro d
  induction d with
  | zero =>
    intro items _
    refine ⟨items, ?_, rfl, ?_⟩
    · unfold ArrayList.insertLoop
      simp
    · intro i
      have : ¬ (k < i ∧ i ≤ k + 0) := by omega
      rw [if_neg this]
  | succ d ih =>
    intro items hlen
    have hprev : ((k + (d + 1) : Nat) : Int) - 1 = ((k + d : Nat) : Int) := by
      push_cast; ring
    have hlt : k + d < items.length := by omega
    obtain ⟨items1, hrun, hlen1, hget⟩ :=
      ih (items.set (k + (d + 1)) (items.getD (k + d) 0)) (by simpa using hlt)
    refine ⟨items1, ?_, by simpa using hlen1, ?_⟩
    · unfold ArrayList.insertLoop
      have hguard : ((k + (d + 1) : Nat) : Int) ≥ (k : Int) + 1 := by push_cast; omega
      simp only [hguard, if_true, hprev, readSlot_ok items (k + d) hlt,
        writeSlot_ok items (k + (d + 1)) _ hlen]
      exact hrun
    · intro i
      rw [hget i]
      by_cases h1 : k < i ∧ i ≤ k + d
      · have h2 : k < i ∧ i ≤ k + (d + 1) := by omega
        have h3 : k + (d + 1) ≠ i - 1 := by omega
        rw [if_pos h1, if_pos h2, List.getElem?_set_ne h3]
      · by_cases h4 : i = k + (d + 1)
        · subst h4
          have h2 : k < k + (d + 1) ∧ k + (d + 1) ≤ k + (d + 1) := by omega
          have h5 : k + (d + 1) - 1 = k + d := by omega
          rw [if_neg h1, if_pos h2, h5, List.getElem?_set_self hlen]
          exact getD_eq_of_getElem? items (k + d) hlt
        · have h2 : ¬ (k < i ∧ i ≤ k + (d + 1)) := by omega
          have h3 : k + (d + 1) ≠ i := by omega
          rw [if_neg h1, if_neg h2, List.getElem?_set_ne h3]

theorem ArrayList.removeLoop_spec (c : Nat) :
    ∀ (d : Nat) (items : List Int) (f : Nat), f + d = c → 1 ≤ f → c ≤ items.length →
      ∃ items1, ArrayList.removeLoop (c : Int) d (f : Int) ((f : Int) - 1) items = .ok items1 ∧
        items1.length = items.length ∧
        ∀ i : Nat, items1[i]? = if f - 1 ≤ i ∧ i + 1 < c then items[i + 1]? else items[i]? := by
  intro d
  induction d with
  | zero =>
    intro items f hf _ _
    refine ⟨items, ?_, rfl, ?_⟩
    · unfold ArrayList.removeLoop
      have : ¬ ((f : Int) < (c : Int)) := by omega
      simp [this]
    · intro i
      have : ¬ (f - 1 ≤ i ∧ i + 1 < c) := by omega
      rw [if_neg this]
  | succ d ih =>
    intro items f hf h1 hlen
    have hflt : f < items.length := by omega
    have hto : ((f : Int) - 1) = ((f - 1 : Nat) : Int) := by omega
    have htolt : f - 1 < items.length := by omega
    obtain ⟨items1, hrun, hlen1, hget⟩ :=
      ih (items.set (f - 1) (items.getD f 0)) (f + 1) (by omega) (by omega) (by simpa using hlen)
    refine ⟨items1, ?_, by simpa using hlen1, ?_⟩
    · unfold ArrayList.removeLoop
      have hguard : ((f : Int) < (c : Int)) := by omega
      have hnext : ((f : Int) - 1 + 1) = ((f + 1 : Nat) : Int) - 1 := by push_cast; ring
      have hnext2 : ((f : Int) + 1) = ((f + 1 : Nat) : Int) := by push_cast; ring
      simp only [hguard, if_true, readSlot_ok items f hflt]
      rw [hto, writeSlot_ok items (f - 1) _ htolt]
      simp only []
      rw [← hto, hnext, hnext2]
      exact hrun
    · intro i
      rw [hget i]
      have e1 : f + 1 - 1 = f := by omega
      rw [e1]
      by_cases h2 : f ≤ i ∧ i + 1 < c
      · have h3 : f - 1 ≤ i ∧ i + 1 < c := by omega
        have h4 : f - 1 ≠ i + 1 := by omega
        rw [if_pos h2, if_pos h3, List.getElem?_set_ne h4]
      · by_cases h5 : i = f - 1
        · subst h5
          have h3 : f - 1 ≤ f - 1 ∧ f - 1 + 1 < c := by omega
          have h6 : f - 1 + 1 = f := by omega
          rw [if_neg h2, if_pos h3, h6, List.getElem?_set_self htolt]
          exact getD_eq_of_getElem? items f hflt
        · have h3 : ¬ (f - 1 ≤ i ∧ i + 1 < c) := by omega
          have h4 : f - 1 ≠ i := by omega
          rw [if_neg h2, if_neg h3, List.getElem?_set_ne h4]

theorem take_set_insert (items items1 : List Int) (c k : Nat) (v : Int) (hk : k ≤ c)
    (hc : c < items.length) (hlen : items1.length = items.length)
    (hget : ∀ i : Nat, items1[i]? = if k < i ∧ i ≤ c then items[i - 1]? else items[i]?) :
    (items1.set k v).take (c + 1) = (items.take c).take k ++ [v] ++ (items.take c).drop k := by
  apply List.ext_getElem?
  intro i
  have hlk : ((items.take c).take k).length = k := by
    simp [List.length_take]; omega
  rcases lt_trichotomy i k with h | h | h
  · rw [List.append_assoc, List.getElem?_append_left (by omega)]
    rw [List.getElem?_take_of_lt (by omega), List.getElem?_set_ne (by omega), hget i,
      if_neg (by omega), List.getElem?_take_of_lt h, List.getElem?_take_of_lt (by omega)]
  · subst h
    rw [List.append_assoc, List.getElem?_append_right (by omega), hlk]
    rw [List.getElem?_take_of_lt (by omega), List.getElem?_set_self (by omega)]
    simp
  · rw [List.getElem?_append_right (by simp [hlk]; omega)]
    have e : i - ((items.take c).take k ++ [v]).length = i - k - 1 := by
      simp [hlk]; omega
    rw [e, List.getElem?_drop]
    have e2 : k + (i - k - 1) = i - 1 := by omega
    rw [e2]
    by_cases hic : i ≤ c
    · rw [List.getElem?_take_of_lt (by omega), List.getElem?_set_ne (by omega), hget i,
        if_pos (by omega), List.getElem?_take_of_lt (by omega)]
    · rw [List.getElem?_eq_none (by simp [List.length_take]; omega),
        List.getElem?_eq_none (by simp [List.length_take]; omega)]

theorem ArrayList.toSeq_length {N : Nat} (a : ArrayList N) (hwf : a.wf) :
    (a.toSeq.length : Int) = a.itemCount := by
  obtain ⟨h1, h2, h3, h4⟩ := hwf
  simp only [ArrayList.toSeq, List.length_take]
  omega

/-- The state `insert` leaves on success, computed from the shifted block. -/
theorem arrayList_insert_run {N : Nat} {T : Type} [Elem T] (a : ArrayList N) (p : Int)
    (v : T) (hwf : a.wf)
    (hp1 : 1 ≤ p) (hp2 : p ≤ a.itemCount + 1) (hcap : a.itemCount < a.maxItems) :
    ∃ items2, a.insert p v =
        .ok true { a with items := items2, itemCount := a.itemCount + 1 } ∧
      items2.length = a.items.length ∧
      items2.take (a.itemCount + 1).toNat =
        a.toSeq.take (p - 1).toNat ++ [Elem.toInt v] ++ a.toSeq.drop (p - 1).toNat := by
  obtain ⟨h1, h2, h3, h4⟩ := hwf
  obtain ⟨c, hc⟩ := Int.eq_ofNat_of_zero_le h3
  obtain ⟨k, hk⟩ := Int.eq_ofNat_of_zero_le (show 0 ≤ p - 1 by omega)
  have hkc : k ≤ c := by omega
  have hclt : c < a.items.length := by omega
  obtain ⟨items1, hrun, hlen1, hget⟩ :=
    ArrayList.insertLoop_spec k (c - k) a.items (by omega)
  have hp : p = (k : Int) + 1 := by omega
  have hfuel : (a.itemCount + 1 - p).toNat = c - k := by omega
  have hpos : a.itemCount = ((k + (c - k) : Nat) : Int) := by omega
  have hable : (decide (p ≥ 1) && decide (p ≤ a.itemCount + 1) &&
      decide (a.itemCount < a.maxItems)) = true := by
    simp [hp1, hp2, hcap]
  have hkc2 : k + (c - k) = c := by omega
  refine ⟨items1.set k (Elem.toInt v), ?_, by simp [hlen1], ?_⟩
  · unfold ArrayList.insert
    have hrun2 : ArrayList.insertLoop p (c - k) a.itemCount a.items = .ok items1 := by
      rw [hp, hpos]; exact hrun
    simp only [hable, if_true, hfuel, hrun2, hk,
      writeSlot_ok items1 k (Elem.toInt v) (by omega)]
  · have e1 : (a.itemCount + 1).toNat = c + 1 := by omega
    have e2 : (p - 1).toNat = k := by omega
    have e3 : a.itemCount.toNat = c := by omega
    rw [hkc2] at hget
    simp only [ArrayList.toSeq, e1, e2, e3]
    exact take_set_insert a.items items1 c k (Elem.toInt v) hkc hclt hlen1 hget

/-- C1 (evaluation of the code): `ArrayList<double, 64> a; a.insert(1, 2.5)` returns true
but the block is `int items[N]`, so the slot receives `int(2.5) = 2`: the logical sequence is
`[2]`, which is not `[2.5]`, and it is the very state that `insert(1, 2.0)` leaves. -/
theorem arrayList_insert_truncates :
    ∃ b : ArrayList 64,
      (ArrayList.new 64).insert 1 (⟨5, 1⟩ : Dbl) = .ok true b ∧
      b.toSeq = [2] ∧
      Dbl.toRat ⟨5, 1⟩ = 5 / 2 ∧
      b.toSeq.map (fun i : Int => (i : ℚ)) ≠ [Dbl.toRat ⟨5, 1⟩] ∧
      (ArrayList.new 64).insert 1 (⟨2, 0⟩ : Dbl) = .ok true b := by
  refine ⟨{ itemCount := 1, maxItems := 64, items := 2 :: List.replicate 63 0 },
    by decide, by decide, by norm_num [Dbl.toRat], ?_, by decide⟩
  have hseq : ({ itemCount := 1, maxItems := 64, items := 2 :: List.replicate 63 0 } :
      ArrayList 64).toSeq = [2] := by decide
  rw [hseq]
  norm_num [Dbl.toRat]

theorem take_remove (items items1 : List Int) (c k : Nat) (hk : k < c)
    (_hc : c ≤ items.length) (_hlen : items1.length = items.length)
    (hget : ∀ i : Nat, items1[i]? = if k ≤ i ∧ i + 1 < c then items[i + 1]? else items[i]?) :
    items1.take (c - 1) = (items.take c).eraseIdx k := by
  apply List.ext_getElem?
  intro i
  rw [List.getElem?_eraseIdx]
  by_cases hi : i < c - 1
  · rw [List.getElem?_take_of_lt hi, hget i]
    by_cases hik : i < k
    · rw [if_neg (by omega), if_pos hik, List.getElem?_take_of_lt (by omega)]
    · rw [if_pos (by omega), if_neg hik, List.getElem?_take_of_lt (by omega)]
  · rw [List.getElem?_take_eq_none (by omega), if_neg (by omega),
      List.getElem?_take_eq_none (by omega)]

/-- The state `remove` leaves on success, computed from the shifted block. -/
theorem arrayList_remove_run {N : Nat} (a : ArrayList N) (p : Int) (hwf : a.wf)
    (hp1 : 1 ≤ p) (hp2 : p ≤ a.itemCount) :
    ∃ items1, a.remove p =
        .ok true { a with items := items1, itemCount := a.itemCount - 1 } ∧
      items1.length = a.items.length ∧
      items1.take (a.itemCount - 1).toNat = a.toSeq.eraseIdx (p - 1).toNat := by
  obtain ⟨h1, h2, h3, h4⟩ := hwf
  obtain ⟨c, hc⟩ := Int.eq_ofNat_of_zero_le h3
  obtain ⟨k, hk⟩ := Int.eq_ofNat_of_zero_le (show 0 ≤ p - 1 by omega)
  have hkc : k < c := by omega
  have hclen : c ≤ a.items.length := by omega
  obtain ⟨items1, hrun, hlen1, hget⟩ :=
    ArrayList.removeLoop_spec c (c - (k + 1)) a.items (k + 1) (by omega) (by omega) hclen
  have hp : p = ((k + 1 : Nat) : Int) := by omega
  have hfuel : (a.itemCount - p).toNat = c - (k + 1) := by omega
  have hable : (decide (p ≥ 1) && decide (p ≤ a.itemCount)) = true := by
    simp [hp1, hp2]
  refine ⟨items1, ?_, hlen1, ?_⟩
  · unfold ArrayList.remove
    have hrun2 : ArrayList.removeLoop a.itemCount (c - (k + 1)) p (p - 1) a.items =
        .ok items1 := by
      rw [hp, hc]; exact hrun
    simp only [hable, if_true, hfuel, hrun2]
  · have e1 : (a.itemCount - 1).toNat = c - 1 := by omega
    have e2 : (p - 1).toNat = k := by omega
    have e3 : a.itemCount.toNat = c := by omega
    have e4 : k + 1 - 1 = k := by omega
    rw [e4] at hget
    simp only [ArrayList.toSeq, e1, e2, e3]
    exact take_remove a.items items1 c k hkc hclen hlen1 hget

/-- C3: on an ArrayList satisfying the class invariant, with `1 <= p <= length`, `remove(p)`
returns true, the logical sequence becomes the old one with its `p`-th element deleted
(earlier elements keep their place, later ones move one position earlier), and the length
drops by one. -/
theorem arrayList_remove_success {N : Nat} (a : ArrayList N) (p : Int) (hwf : a.wf)
    (hp1 : 1 ≤ p) (hp2 : p ≤ (a.toSeq.length : Int)) :
    ∃ b : ArrayList N, a.remove p = .ok true b ∧
      b.toSeq = a.toSeq.eraseIdx (p - 1).toNat ∧
      (∀ i : Nat, i < (p - 1).toNat → b.toSeq[i]? = a.toSeq[i]?) ∧
      (∀ i : Nat, (p - 1).toNat ≤ i → b.toSeq[i]? = a.toSeq[i + 1]?) ∧
      b.toSeq.length + 1 = a.toSeq.length ∧
      b.getLength = a.getLength - 1 := by
  have hl := ArrayList.toSeq_length a hwf
  rw [hl] at hp2
  obtain ⟨items1, hrun, _, hseq⟩ := arrayList_remove_run a p hwf hp1 hp2
  have hseq2 : ({ a with items := items1, itemCount := a.itemCount - 1 } :
      ArrayList N).toSeq = a.toSeq.eraseIdx (p - 1).toNat := hseq
  refine ⟨_, hrun, hseq2, ?_, ?_, ?_, rfl⟩
  · intro i hi
    rw [hseq2, List.getElem?_eraseIdx, if_pos hi]
  · intro i hi
    rw [hseq2, List.getElem?_eraseIdx, if_neg (by omega)]
  · rw [hseq2, List.length_eraseIdx, if_pos (by omega)]
    omega

theorem arrayList_remove_success_witness :
    ∃ b : ArrayList 64, ArrayList.sample.remove 1 = .ok true b ∧
      b.toSeq = ArrayList.sample.toSeq.eraseIdx ((1 : Int) - 1).toNat ∧
      (∀ i : Nat, i < ((1 : Int) - 1).toNat → b.toSeq[i]? = ArrayList.sample.toSeq[i]?) ∧
      (∀ i : Nat, ((1 : Int) - 1).toNat ≤ i → b.toSeq[i]? = ArrayList.sample.toSeq[i + 1]?) ∧
      b.toSeq.length + 1 = ArrayList.sample.toSeq.length ∧
      b.getLength = ArrayList.sample.getLength - 1 :=
  arrayList_remove_success ArrayList.sample 1 (by decide) (by decide) (by decide)


/-! ## LinkedList: chains in the free store -/

namespace LinkedList

theorem isSeg_nil (h : Heap) (p q : Option Nat) : isSeg h p [] q ↔ p = q := by
  simp [isSeg]

theorem isSeg_cons (h : Heap) (p q : Option Nat) (c : Nat × Int) (cs : List (Nat × Int)) :
    isSeg h p (c :: cs) q ↔
      p = some c.1 ∧ ∃ nx, h[c.1]? = some (some ⟨c.2, nx⟩) ∧ isSeg h nx cs q := by
  simp [isSeg]

theorem lt_of_getElem?_some {α : Type} (h : List α) (a : Nat) (x : α)
    (hx : h[a]? = some x) : a < h.length := by
  by_contra hcon
  rw [List.getElem?_eq_none (by omega)] at hx
  exact Option.noConfusion hx

/-- Every address of a segment is an allocated cell. -/
theorem isSeg_addr_lt (h : Heap) :
    ∀ (cs : List (Nat × Int)) (p q : Option Nat), isSeg h p cs q →
      ∀ a ∈ cs.map Prod.fst, a < h.length := by
  intro cs
  induction cs with
  | nil => intro p q _ a ha; simp at ha
  | cons c cs ih =>
    intro p q hseg a ha
    rw [isSeg_cons] at hseg
    obtain ⟨_, nx, hc, hrest⟩ := hseg
    rw [List.map_cons, List.mem_cons] at ha
    rcases ha with ha | ha
    · subst ha
      exact lt_of_getElem?_some h _ _ hc
    · exact ih nx q hrest a ha

/-- Allocation leaves every segment in place. -/
theorem isSeg_alloc (h : Heap) (x : Option Node) :
    ∀ (cs : List (Nat × Int)) (p q : Option Nat), isSeg h p cs q →
      isSeg (h ++ [x]) p cs q := by
  intro cs
  induction cs with
  | nil => intro p q hseg; simpa [isSeg] using hseg
  | cons c cs ih =>
    intro p q hseg
    rw [isSeg_cons] at hseg ⊢
    obtain ⟨hp, nx, hc, hrest⟩ := hseg
    refine ⟨hp, nx, ?_, ih nx q hrest⟩
    rw [List.getElem?_append_left (lt_of_getElem?_some h _ _ hc)]
    exact hc

/-- Writing a cell that is not on a segment leaves the segment in place. -/
theorem isSeg_set (h : Heap) (a : Nat) (x : Option Node) :
    ∀ (cs : List (Nat × Int)) (p q : Option Nat), isSeg h p cs q →
      a ∉ cs.map Prod.fst → isSeg (h.set a x) p cs q := by
  intro cs
  induction cs with
  | nil => intro p q hseg _; simpa [isSeg] using hseg
  | cons c cs ih =>
    intro p q hseg hna
    rw [isSeg_cons] at hseg ⊢
    obtain ⟨hp, nx, hc, hrest⟩ := hseg
    rw [List.map_cons, List.mem_cons, not_or] at hna
    refine ⟨hp, nx, ?_, ih nx q hrest hna.2⟩
    rw [List.getElem?_set_ne hna.1]
    exact hc

theorem isSeg_append (h : Heap) :
    ∀ (c1 c2 : List (Nat × Int)) (p q : Option Nat),
      isSeg h p (c1 ++ c2) q ↔ ∃ r, isSeg h p c1 r ∧ isSeg h r c2 q := by
  intro c1
  induction c1 with
  | nil =>
    intro c2 p q
    simp [isSeg]
  | cons c c1 ih =>
    intro c2 p q
    rw [List.cons_append, isSeg_cons]
    constructor
    · rintro ⟨hp, nx, hc, hrest⟩
      obtain ⟨r, h1, h2⟩ := (ih c2 nx q).1 hrest
      exact ⟨r, (isSeg_cons h p r c c1).2 ⟨hp, nx, hc, h1⟩, h2⟩
    · rintro ⟨r, h1, h2⟩
      rw [isSeg_cons] at h1
      obtain ⟨hp, nx, hc, hrest⟩ := h1
      exact ⟨hp, nx, hc, (ih c2 nx q).2 ⟨r, hrest, h2⟩⟩

/-- A null-terminated chain is determined by its first pointer. -/
theorem isSeg_unique (h : Heap) :
    ∀ (c1 c2 : List (Nat × Int)) (p : Option Nat),
      isSeg h p c1 none → isSeg h p c2 none → c1 = c2 := by
  intro c1
  induction c1 with
  | nil =>
    intro c2 p h1 h2
    rw [isSeg_nil] at h1
    subst h1
    cases c2 with
    | nil => rfl
    | cons c c2 =>
      rw [isSeg_cons] at h2
      exact Option.noConfusion h2.1
  | cons c c1 ih =>
    intro c2 p h1 h2
    rw [isSeg_cons] at h1
    obtain ⟨hp, nx, hc, hrest⟩ := h1
    cases c2 with
    | nil =>
      rw [isSeg_nil] at h2
      rw [h2] at hp
      exact Option.noConfusion hp
    | cons d c2 =>
      rw [isSeg_cons] at h2
      obtain ⟨hp2, nx2, hd, hrest2⟩ := h2
      rw [hp] at hp2
      have hfst : c.1 = d.1 := Option.some.inj hp2
      rw [← hfst, hc] at hd
      have hnode : (⟨c.2, nx⟩ : Node) = ⟨d.2, nx2⟩ := Option.some.inj (Option.some.inj hd)
      have hsnd : c.2 = d.2 := congrArg Node.value hnode
      have hnx : nx = nx2 := congrArg Node.next hnode
      subst hnx
      rw [ih c2 nx hrest hrest2]
      congr 1
      exact Prod.ext hfst hsnd

/-- A null-terminated chain visits no cell twice. -/
theorem isSeg_nodup (h : Heap) :
    ∀ (cs : List (Nat × Int)) (p : Option Nat), isSeg h p cs none →
      (cs.map Prod.fst).Nodup := by
  intro cs
  induction cs with
  | nil => intro p _; simp
  | cons c cs ih =>
    intro p hseg
    have hseg0 := hseg
    rw [isSeg_cons] at hseg
    obtain ⟨hp, nx, hc, hrest⟩ := hseg
    rw [List.map_cons, List.nodup_cons]
    refine ⟨?_, ih nx hrest⟩
    intro hmem
    rw [List.mem_map] at hmem
    obtain ⟨d, hd, hdc⟩ := hmem
    obtain ⟨s, t, hst⟩ := List.append_of_mem hd
    rw [hst, isSeg_append] at hrest
    obtain ⟨r, _, h2⟩ := hrest
    have h2c := h2
    rw [isSeg_cons] at h2c
    have hr : r = p := by rw [h2c.1, hp, hdc]
    rw [hr] at h2
    have heq := isSeg_unique h _ _ p hseg0 h2
    have hlen := congrArg List.length heq
    rw [hst] at hlen
    simp at hlen
    omega

end LinkedList

/-! ## LinkedList: node accessors at a live cell, and the abstraction function -/

theorem Heap.deref_live (h : Heap) (a : Nat) (nd : Node) (ha : h[a]? = some (some nd)) :
    h.deref (some a) = .ok nd := by
  simp [Heap.deref, ha]

theorem Node.getNext_live (h : Heap) (a : Nat) (nd : Node) (ha : h[a]? = some (some nd)) :
    Node.getNext h (some a) = .ok nd.next := by
  simp [Node.getNext, Heap.deref_live h a nd ha]

theorem Node.getItem_live (h : Heap) (a : Nat) (nd : Node) (ha : h[a]? = some (some nd)) :
    Node.getItem h (some a) = .ok nd.value := by
  simp [Node.getItem, Heap.deref_live h a nd ha]

theorem Node.setNext_live (h : Heap) (a : Nat) (nd : Node) (n : Option Nat)
    (ha : h[a]? = some (some nd)) :
    Node.setNext h (some a) n = .ok (h.set a (some { nd with next := n })) := by
  simp [Node.setNext, Heap.deref_live h a nd ha, Heap.store, ha]

theorem Node.setItem_live (h : Heap) (a : Nat) (nd : Node) (v : Int)
    (ha : h[a]? = some (some nd)) :
    Node.setItem h (some a) v = .ok (h.set a (some { nd with value := v })) := by
  simp [Node.setItem, Heap.deref_live h a nd ha, Heap.store, ha]

theorem Heap.free_live (h : Heap) (a : Nat) (nd : Node) (ha : h[a]? = some (some nd)) :
    h.free (some a) = .ok (h.set a none) := by
  simp [Heap.free, ha]

namespace LinkedList

theorem chainFrom_of_isSeg (h : Heap) :
    ∀ (cs : List (Nat × Int)) (p : Option Nat), isSeg h p cs none →
      chainFrom h cs.length p = some (cs.map Prod.snd) := by
  intro cs
  induction cs with
  | nil =>
    intro p hseg
    rw [isSeg_nil] at hseg
    subst hseg
    simp [chainFrom]
  | cons c cs ih =>
    intro p hseg
    rw [isSeg_cons] at hseg
    obtain ⟨hp, nx, hc, hrest⟩ := hseg
    subst hp
    simp [chainFrom, hc, ih nx hrest]

theorem isSeg_of_chainFrom (h : Heap) :
    ∀ (n : Nat) (p : Option Nat) (s : List Int), chainFrom h n p = some s →
      ∃ cs, isSeg h p cs none ∧ cs.map Prod.snd = s ∧ cs.length = n := by
  intro n
  induction n with
  | zero =>
    intro p s hch
    cases p with
    | none =>
      simp [chainFrom] at hch
      exact ⟨[], by simp [isSeg], by simpa using hch, rfl⟩
    | some a => simp [chainFrom] at hch
  | succ n ih =>
    intro p s hch
    cases p with
    | none => simp [chainFrom] at hch
    | some a =>
      simp only [chainFrom] at hch
      split at hch
      · rename_i nd hnd
        split at hch
        · rename_i t ht
          obtain ⟨cs, hseg, hmap, hlen⟩ := ih nd.next t ht
          refine ⟨(a, nd.value) :: cs, ?_, ?_, by simp [hlen]⟩
          · rw [isSeg_cons]
            exact ⟨rfl, nd.next, hnd, hseg⟩
          · simp only [List.map_cons, hmap]
            exact Option.some.inj hch
        · exact Option.noConfusion hch
      · exact Option.noConfusion hch

/-- What `toSeq l = some s` says: a null-terminated chain of `itemCount` nodes holding `s`. -/
theorem toSeq_eq_some_iff (l : LinkedList) (s : List Int) :
    l.toSeq = some s ↔
      ∃ cs, isSeg l.heap l.headPtr cs none ∧ cs.map Prod.snd = s ∧
        (cs.length : Int) = l.itemCount := by
  constructor
  · intro hs
    unfold toSeq at hs
    split at hs
    · rename_i h0
      obtain ⟨cs, hseg, hmap, hlen⟩ := isSeg_of_chainFrom _ _ _ _ hs
      exact ⟨cs, hseg, hmap, by omega⟩
    · exact Option.noConfusion hs
  · rintro ⟨cs, hseg, hmap, hlen⟩
    unfold toSeq
    have h0 : 0 ≤ l.itemCount := by omega
    have hn : l.itemCount.toNat = cs.length := by omega
    rw [if_pos h0, hn, chainFrom_of_isSeg _ _ _ hseg, hmap]

/-- Walking a segment with `getNodeAt`'s loop ends on the link that closes the segment. -/
theorem getNodeAtLoop_isSeg (h : Heap) :
    ∀ (cs : List (Nat × Int)) (p q : Option Nat) (skip : Int), isSeg h p cs q →
      getNodeAtLoop h (skip + cs.length) cs.length skip p = .ok q := by
  intro cs
  induction cs with
  | nil =>
    intro p q skip hseg
    rw [isSeg_nil] at hseg
    subst hseg
    unfold getNodeAtLoop
    simp
  | cons c cs ih =>
    intro p q skip hseg
    rw [isSeg_cons] at hseg
    obtain ⟨hp, nx, hc, hrest⟩ := hseg
    subst hp
    unfold getNodeAtLoop
    have hguard : skip < skip + ((c :: cs).length : Int) := by
      simp only [List.length_cons]; omega
    have hpos : skip + ((c :: cs).length : Int) = (skip + 1) + (cs.length : Int) := by
      simp only [List.length_cons]; omega
    rw [if_pos hguard]
    simp only [List.length_cons, Node.getNext_live h c.1 _ hc]
    simp only [List.length_cons] at hpos
    rw [hpos]
    exact ih nx q (skip + 1) hrest

end LinkedList

/-! ## LinkedList: insert -/

namespace LinkedList

/-- Calling `getNodeAt(position)` on a chain whose first `position - 1` nodes are the segment `c1`
returns the link that closes `c1`. -/
theorem getNodeAt_isSeg (l : LinkedList) (c1 : List (Nat × Int)) (q : Option Nat)
    (hseg : isSeg l.heap l.headPtr c1 q) (hle : (c1.length : Int) + 1 ≤ l.itemCount) :
    getNodeAt l ((c1.length : Int) + 1) = .ok q := by
  unfold getNodeAt
  have hcond : (c1.length : Int) + 1 ≥ 1 ∧ (c1.length : Int) + 1 ≤ l.itemCount := by omega
  have hfuel : ((c1.length : Int) + 1 - 1).toNat = c1.length := by omega
  have hpos : (c1.length : Int) + 1 = 1 + (c1.length : Int) := by omega
  rw [if_pos hcond, hfuel, hpos]
  exact getNodeAtLoop_isSeg l.heap c1 l.headPtr q 1 hseg

theorem insert_head (l : LinkedList) (cs : List (Nat × Int)) (v : Int)
    (hseg : isSeg l.heap l.headPtr cs none) (hlen : (cs.length : Int) = l.itemCount) :
    ∃ b : LinkedList, l.insert 1 v = .ok true b ∧
      isSeg b.heap b.headPtr ((l.heap.length, v) :: cs) none ∧
      b.itemCount = l.itemCount + 1 := by
  have hlt := isSeg_addr_lt l.heap cs l.headPtr none hseg
  have hfresh : l.heap.length ∉ cs.map Prod.fst := fun hmem => lt_irrefl _ (hlt _ hmem)
  have hnew : (l.heap ++ [some (Node.create v)])[l.heap.length]? =
      some (some (Node.create v)) := by
    simp
  have hable : (decide ((1 : Int) ≥ 1) && decide ((1 : Int) ≤ l.itemCount + 1)) = true := by
    have : (1 : Int) ≤ l.itemCount + 1 := by omega
    simp [this]
  refine ⟨{ heap := (l.heap ++ [some (Node.create v)]).set l.heap.length
              (some { Node.create v with next := l.headPtr }),
            headPtr := some l.heap.length, itemCount := l.itemCount + 1 }, ?_, ?_, ?_⟩
  · unfold insert
    simp only [hable, if_true, Heap.alloc, Node.setNext_live _ _ _ l.headPtr hnew]
  · rw [isSeg_cons]
    refine ⟨rfl, l.headPtr, ?_, ?_⟩
    · simp [Node.create]
    · exact isSeg_set _ _ _ _ _ _ (isSeg_alloc _ _ _ _ _ hseg) hfresh
  · rfl

theorem insert_mid (l : LinkedList) (c1 : List (Nat × Int)) (c : Nat × Int)
    (c2 : List (Nat × Int)) (v : Int)
    (hseg : isSeg l.heap l.headPtr (c1 ++ c :: c2) none)
    (hlen : ((c1 ++ c :: c2).length : Int) = l.itemCount) :
    ∃ b : LinkedList, l.insert ((c1.length : Int) + 2) v = .ok true b ∧
      isSeg b.heap b.headPtr (c1 ++ c :: (l.heap.length, v) :: c2) none ∧
      b.itemCount = l.itemCount + 1 := by
  have hlt := isSeg_addr_lt l.heap _ l.headPtr none hseg
  have hnd := isSeg_nodup l.heap _ l.headPtr hseg
  obtain ⟨r, hs1, hs2⟩ := (isSeg_append l.heap c1 (c :: c2) l.headPtr none).1 hseg
  rw [isSeg_cons] at hs2
  obtain ⟨hr, nx, hc, hs3⟩ := hs2
  subst hr
  simp only [List.map_append, List.map_cons, List.mem_append, List.mem_cons] at hlt
  rw [List.map_append, List.map_cons, List.nodup_append] at hnd
  obtain ⟨_, hnd2, hdisj⟩ := hnd
  rw [List.nodup_cons] at hnd2
  have hc_c1 : c.1 ∉ c1.map Prod.fst := fun hm => hdisj hm (List.mem_cons_self _ _)
  have hc_c2 : c.1 ∉ c2.map Prod.fst := hnd2.1
  have hn_c1 : l.heap.length ∉ c1.map Prod.fst :=
    fun hm => lt_irrefl _ (hlt _ (Or.inl hm))
  have hn_c2 : l.heap.length ∉ c2.map Prod.fst :=
    fun hm => lt_irrefl _ (hlt _ (Or.inr (Or.inr hm)))
  have hcn : c.1 < l.heap.length := hlt _ (Or.inr (Or.inl rfl))
  have hlen2 : (c1.length : Int) + (c2.length : Int) + 1 = l.itemCount := by
    rw [← hlen]; simp only [List.length_append, List.length_cons]; push_cast; ring
  -- the free store after `new`
  have hnew : (l.heap ++ [some (Node.create v)])[l.heap.length]? =
      some (some (Node.create v)) := by
    simp
  have hc1 : (l.heap ++ [some (Node.create v)])[c.1]? = some (some ⟨c.2, nx⟩) := by
    rw [List.getElem?_append_left hcn]; exact hc
  have hs1a : isSeg (l.heap ++ [some (Node.create v)]) l.headPtr c1 (some c.1) :=
    isSeg_alloc _ _ _ _ _ hs1
  have hget : getNodeAt { l with heap := l.heap ++ [some (Node.create v)] }
      ((c1.length : Int) + 2 - 1) = .ok (some c.1) := by
    have e : (c1.length : Int) + 2 - 1 = (c1.length : Int) + 1 := by ring
    rw [e]
    exact getNodeAt_isSeg _ c1 (some c.1) hs1a (by simp only; omega)
  -- the free store after `newNodePtr->setNext(prevPtr->getNext())`
  have hc2 : ((l.heap ++ [some (Node.create v)]).set l.heap.length
      (some { Node.create v with next := nx }))[c.1]? = some (some ⟨c.2, nx⟩) := by
    rw [List.getElem?_set_ne (by omega)]; exact hc1
  have hable : (decide ((c1.length : Int) + 2 ≥ 1) &&
      decide ((c1.length : Int) + 2 ≤ l.itemCount + 1)) = true := by
    have h1 : (c1.length : Int) + 2 ≥ 1 := by omega
    have h2 : (c1.length : Int) + 2 ≤ l.itemCount + 1 := by omega
    simp [h1, h2]
  have hne1 : ¬ ((c1.length : Int) + 2 = 1) := by omega
  refine ⟨{ heap := ((l.heap ++ [some (Node.create v)]).set l.heap.length
              (some { Node.create v with next := nx })).set c.1
                (some { (⟨c.2, nx⟩ : Node) with next := some l.heap.length }),
            headPtr := l.headPtr, itemCount := l.itemCount + 1 }, ?_, ?_, ?_⟩
  · unfold insert
    simp only [hable, if_true, Heap.alloc, if_neg hne1, hget,
      Node.getNext_live _ _ _ hc1, Node.setNext_live _ _ _ nx hnew,
      Node.setNext_live _ _ _ (some l.heap.length) hc2]
  · simp only
    rw [isSeg_append]
    refine ⟨some c.1, ?_, ?_⟩
    · exact isSeg_set _ _ _ _ _ _ (isSeg_set _ _ _ _ _ _ hs1a hn_c1) hc_c1
    · rw [isSeg_cons]
      refine ⟨rfl, some l.heap.length, ?_, ?_⟩
      · rw [List.getElem?_set_self (by simp; omega)]
      · rw [isSeg_cons]
        refine ⟨rfl, nx, ?_, ?_⟩
        · rw [List.getElem?_set_ne (by simp only; omega), List.getElem?_set_self (by simp)]
          simp [Node.create]
        · exact isSeg_set _ _ _ _ _ _
            (isSeg_set _ _ _ _ _ _ (isSeg_alloc _ _ _ _ _ hs3) hn_c2) hc_c2
  · rfl

end LinkedList

theorem exists_split_at {α : Type} (cs : List α) (j : Nat) (hj : j < cs.length) :
    ∃ c1 c c2, cs = c1 ++ c :: c2 ∧ c1.length = j := by
  refine ⟨cs.take j, cs[j], cs.drop (j + 1), ?_, ?_⟩
  · rw [List.getElem_cons_drop, List.take_append_drop]
  · rw [List.length_take]; omega

/-- The state `insert` leaves on success, read back through the abstraction function. -/
theorem linkedList_insert_run (l : LinkedList) (s : List Int) (p v : Int)
    (hs : l.toSeq = some s) (hp1 : 1 ≤ p) (hp2 : p ≤ (s.length : Int) + 1) :
    ∃ b : LinkedList, l.insert p v = .ok true b ∧
      b.toSeq = some (s.take (p - 1).toNat ++ [v] ++ s.drop (p - 1).toNat) ∧
      b.itemCount = l.itemCount + 1 := by
  obtain ⟨cs, hseg, hmap, hlen⟩ := (LinkedList.toSeq_eq_some_iff l s).1 hs
  have hsl : s.length = cs.length := by rw [← hmap, List.length_map]
  by_cases h1 : p = 1
  · subst h1
    obtain ⟨b, hrun, hb, hcount⟩ := LinkedList.insert_head l cs v hseg hlen
    refine ⟨b, hrun, ?_, hcount⟩
    rw [LinkedList.toSeq_eq_some_iff]
    refine ⟨_, hb, ?_, ?_⟩
    · simp [hmap]
    · rw [hcount, ← hlen]; simp
  · obtain ⟨j, hj⟩ := Int.eq_ofNat_of_zero_le (show 0 ≤ p - 2 by omega)
    have hjlt : j < cs.length := by omega
    obtain ⟨c1, c, c2, hsplit, hc1⟩ := exists_split_at cs j hjlt
    subst hsplit
    have hp : p = (c1.length : Int) + 2 := by omega
    subst hp
    obtain ⟨b, hrun, hb, hcount⟩ := LinkedList.insert_mid l c1 c c2 v hseg hlen
    refine ⟨b, hrun, ?_, hcount⟩
    rw [LinkedList.toSeq_eq_some_iff]
    refine ⟨_, hb, ?_, ?_⟩
    · have hk : ((c1.length : Int) + 2 - 1).toNat = c1.length + 1 := by omega
      have hs2 : s = (c1.map Prod.snd ++ [c.2]) ++ c2.map Prod.snd := by
        rw [← hmap]; simp
      have hl1 : (c1.map Prod.snd ++ [c.2]).length = c1.length + 1 := by simp
      rw [hk]
      conv_rhs => rw [hs2, List.take_left' hl1, List.drop_left' hl1]
      simp
    · rw [hcount, ← hlen]
      simp only [List.length_append, List.length_cons]
      push_cast
      ring

/-- C2: on a LinkedList whose chain holds the sequence `s` (null-terminated, `itemCount`
nodes), with `1 <= p <= length(s) + 1`, `insert(p, v)` returns true, the chain then holds
(first `p - 1` elements of `s`) ++ [v] ++ (the remaining elements), and `itemCount` grows by
one. -/
theorem linkedList_insert_success (l : LinkedList) (s : List Int) (p v : Int)
    (hs : l.toSeq = some s) (hp1 : 1 ≤ p) (hp2 : p ≤ (s.length : Int) + 1) :
    ∃ b : LinkedList, l.insert p v = .ok true b ∧
      b.toSeq = some (s.take (p - 1).toNat ++ [v] ++ s.drop (p - 1).toNat) ∧
      b.itemCount = l.itemCount + 1 :=
  linkedList_insert_run l s p v hs hp1 hp2

theorem linkedList_insert_success_witness :
    ∃ b : LinkedList, LinkedList.sample.insert 3 5 = .ok true b ∧
      b.toSeq = some ([30, 20, 10].take ((3 : Int) - 1).toNat ++ [5] ++
        [30, 20, 10].drop ((3 : Int) - 1).toNat) ∧
      b.itemCount = LinkedList.sample.itemCount + 1 :=
  linkedList_insert_success LinkedList.sample [30, 20, 10] 3 5 (by decide) (by decide)
    (by decide)

/-! ## LinkedList: remove -/

namespace LinkedList

theorem remove_head (l : LinkedList) (c : Nat × Int) (cs : List (Nat × Int))
    (hseg : isSeg l.heap l.headPtr (c :: cs) none)
    (hlen : ((c :: cs).length : Int) = l.itemCount) :
    ∃ b : LinkedList, l.remove 1 = .ok true b ∧ isSeg b.heap b.headPtr cs none ∧
      b.itemCount = l.itemCount - 1 := by
  have hnd := isSeg_nodup l.heap _ l.headPtr hseg
  rw [List.map_cons, List.nodup_cons] at hnd
  have hc_cs : c.1 ∉ cs.map Prod.fst := hnd.1
  rw [isSeg_cons] at hseg
  obtain ⟨hhead, nx, hc, hrest⟩ := hseg
  have hcl : c.1 < l.heap.length := lt_of_getElem?_some _ _ _ hc
  have hable : (decide ((1 : Int) ≥ 1) && decide ((1 : Int) ≤ l.itemCount)) = true := by
    have : (1 : Int) ≤ l.itemCount := by
      rw [← hlen]; simp only [List.length_cons]; omega
    simp [this]
  have hc1 : (l.heap.set c.1 (some { (⟨c.2, nx⟩ : Node) with next := none }))[c.1]? =
      some (some { (⟨c.2, nx⟩ : Node) with next := none }) := by
    rw [List.getElem?_set_self hcl]
  refine ⟨{ heap := (l.heap.set c.1 (some { (⟨c.2, nx⟩ : Node) with next := none })).set
              c.1 none,
            headPtr := nx, itemCount := l.itemCount - 1 }, ?_, ?_, ?_⟩
  · unfold remove
    simp only [hable, if_true, hhead, Node.getNext_live _ _ _ hc, releaseNode,
      Node.setNext_live _ _ _ none hc, Heap.free_live _ _ _ hc1]
  · exact isSeg_set _ _ _ _ _ _ (isSeg_set _ _ _ _ _ _ hrest hc_cs) hc_cs
  · rfl

theorem remove_mid (l : LinkedList) (c1 : List (Nat × Int)) (c d : Nat × Int)
    (c2 : List (Nat × Int))
    (hseg : isSeg l.heap l.headPtr (c1 ++ c :: d :: c2) none)
    (hlen : ((c1 ++ c :: d :: c2).length : Int) = l.itemCount) :
    ∃ b : LinkedList, l.remove ((c1.length : Int) + 2) = .ok true b ∧
      isSeg b.heap b.headPtr (c1 ++ c :: c2) none ∧
      b.itemCount = l.itemCount - 1 := by
  have hnd := isSeg_nodup l.heap _ l.headPtr hseg
  obtain ⟨r, hs1, hs2⟩ := (isSeg_append l.heap c1 (c :: d :: c2) l.headPtr none).1 hseg
  rw [isSeg_cons] at hs2
  obtain ⟨hr, nx, hc, hs3⟩ := hs2
  subst hr
  rw [isSeg_cons] at hs3
  obtain ⟨hnx, nx2, hd, hs4⟩ := hs3
  subst hnx
  rw [List.map_append, List.map_cons, List.map_cons, List.nodup_append] at hnd
  obtain ⟨_, hnd2, hdisj⟩ := hnd
  rw [List.nodup_cons, List.nodup_cons] at hnd2
  have hc_c1 : c.1 ∉ c1.map Prod.fst := fun hm => hdisj hm (List.mem_cons_self _ _)
  have hd_c1 : d.1 ∉ c1.map Prod.fst :=
    fun hm => hdisj hm (List.mem_cons_of_mem _ (List.mem_cons_self _ _))
  have hcd : c.1 ≠ d.1 := fun he => hnd2.1 (by rw [he]; exact List.mem_cons_self _ _)
  have hc_c2 : c.1 ∉ c2.map Prod.fst := fun hm => hnd2.1 (List.mem_cons_of_mem _ hm)
  have hd_c2 : d.1 ∉ c2.map Prod.fst := hnd2.2.1
  have hcl : c.1 < l.heap.length := lt_of_getElem?_some _ _ _ hc
  have hdl : d.1 < l.heap.length := lt_of_getElem?_some _ _ _ hd
  have hlen2 : (c1.length : Int) + (c2.length : Int) + 2 = l.itemCount := by
    rw [← hlen]; simp only [List.length_append, List.length_cons]; push_cast; ring
  have hget : getNodeAt l ((c1.length : Int) + 2 - 1) = .ok (some c.1) := by
    have e : (c1.length : Int) + 2 - 1 = (c1.length : Int) + 1 := by ring
    rw [e]
    exact getNodeAt_isSeg _ c1 (some c.1) hs1 (by omega)
  have hd1 : (l.heap.set c.1 (some { (⟨c.2, some d.1⟩ : Node) with next := nx2 }))[d.1]? =
      some (some ⟨d.2, nx2⟩) := by
    rw [List.getElem?_set_ne hcd]; exact hd
  have hd2 : ((l.heap.set c.1 (some { (⟨c.2, some d.1⟩ : Node) with next := nx2 })).set d.1
      (some { (⟨d.2, nx2⟩ : Node) with next := none }))[d.1]? =
      some (some { (⟨d.2, nx2⟩ : Node) with next := none }) := by
    rw [List.getElem?_set_self (by simp only [List.length_set]; exact hdl)]
  have hable : (decide ((c1.length : Int) + 2 ≥ 1) &&
      decide ((c1.length : Int) + 2 ≤ l.itemCount)) = true := by
    have h1 : (c1.length : Int) + 2 ≥ 1 := by omega
    have h2 : (c1.length : Int) + 2 ≤ l.itemCount := by omega
    simp [h1, h2]
  have hne1 : ¬ ((c1.length : Int) + 2 = 1) := by omega
  refine ⟨{ heap := ((l.heap.set c.1 (some { (⟨c.2, some d.1⟩ : Node) with next := nx2 })).set
              d.1 (some { (⟨d.2, nx2⟩ : Node) with next := none })).set d.1 none,
            headPtr := l.headPtr, itemCount := l.itemCount - 1 }, ?_, ?_, ?_⟩
  · unfold remove
    simp only [hable, if_true, if_neg hne1, hget, Node.getNext_live _ _ _ hc,
      Node.getNext_live _ _ _ hd, Node.setNext_live _ _ _ nx2 hc, releaseNode,
      Node.setNext_live _ _ _ none hd1, Heap.free_live _ _ _ hd2]
  · simp only
    rw [isSeg_append]
    refine ⟨some c.1, ?_, ?_⟩
    · exact isSeg_set _ _ _ _ _ _
        (isSeg_set _ _ _ _ _ _ (isSeg_set _ _ _ _ _ _ hs1 hc_c1) hd_c1) hd_c1
    · rw [isSeg_cons]
      refine ⟨rfl, nx2, ?_, ?_⟩
      · rw [List.getElem?_set_ne (Ne.symm hcd), List.getElem?_set_ne (Ne.symm hcd),
          List.getElem?_set_self hcl]
      · exact isSeg_set _ _ _ _ _ _
          (isSeg_set _ _ _ _ _ _ (isSeg_set _ _ _ _ _ _ hs4 hc_c2) hd_c2) hd_c2
  · rfl

end LinkedList

/-- The state `remove` leaves on success, read back through the abstraction function. -/
theorem linkedList_remove_run (l : LinkedList) (s : List Int) (p : Int)
    (hs : l.toSeq = some s) (hp1 : 1 ≤ p) (hp2 : p ≤ (s.length : Int)) :
    ∃ b : LinkedList, l.remove p = .ok true b ∧
      b.toSeq = some (s.eraseIdx (p - 1).toNat) ∧
      b.itemCount = l.itemCount - 1 := by
  obtain ⟨cs, hseg, hmap, hlen⟩ := (LinkedList.toSeq_eq_some_iff l s).1 hs
  have hsl : s.length = cs.length := by rw [← hmap, List.length_map]
  by_cases h1 : p = 1
  · subst h1
    cases cs with
    | nil => simp only [List.length_nil] at hsl; omega
    | cons c cs =>
      obtain ⟨b, hrun, hb, hcount⟩ := LinkedList.remove_head l c cs hseg hlen
      refine ⟨b, hrun, ?_, hcount⟩
      rw [LinkedList.toSeq_eq_some_iff]
      refine ⟨_, hb, ?_, ?_⟩
      · rw [← hmap]; simp
      · rw [hcount, ← hlen]; simp
  · obtain ⟨j, hj⟩ := Int.eq_ofNat_of_zero_le (show 0 ≤ p - 2 by omega)
    have hjlt : j < cs.length := by omega
    obtain ⟨c1, c, c2, hsplit, hc1⟩ := exists_split_at cs j hjlt
    subst hsplit
    have hp : p = (c1.length : Int) + 2 := by omega
    subst hp
    cases c2 with
    | nil =>
      simp only [List.length_append, List.length_cons, List.length_nil] at hsl
      omega
    | cons d c2 =>
      obtain ⟨b, hrun, hb, hcount⟩ := LinkedList.remove_mid l c1 c d c2 hseg hlen
      refine ⟨b, hrun, ?_, hcount⟩
      rw [LinkedList.toSeq_eq_some_iff]
      refine ⟨_, hb, ?_, ?_⟩
      · have hk : ((c1.length : Int) + 2 - 1).toNat = c1.length + 1 := by omega
        have hs2 : s = c1.map Prod.snd ++ c.2 :: d.2 :: c2.map Prod.snd := by
          rw [← hmap]; simp
        rw [hk, hs2, List.eraseIdx_append_of_length_le (by simp)]
        simp
      · rw [hcount, ← hlen]
        simp only [List.length_append, List.length_cons]
        push_cast
        ring

/-- C4: on a LinkedList whose chain holds the sequence `s`, with `1 <= p <= length(s)`,
`remove(p)` returns true, the chain then holds `s` with its `p`-th element deleted, and
`itemCount` drops by one. -/
theorem linkedList_remove_success (l : LinkedList) (s : List Int) (p : Int)
    (hs : l.toSeq = some s) (hp1 : 1 ≤ p) (hp2 : p ≤ (s.length : Int)) :
    ∃ b : LinkedList, l.remove p = .ok true b ∧
      b.toSeq = some (s.eraseIdx (p - 1).toNat) ∧
      b.itemCount = l.itemCount - 1 :=
  linkedList_remove_run l s p hs hp1 hp2

theorem linkedList_remove_success_witness :
    ∃ b : LinkedList, LinkedList.sample.remove 2 = .ok true b ∧
      b.toSeq = some ([30, 20, 10].eraseIdx ((2 : Int) - 1).toNat) ∧
      b.itemCount = LinkedList.sample.itemCount - 1 :=
  linkedList_remove_success LinkedList.sample [30, 20, 10] 2 (by decide) (by decide)
    (by decide)

/-! ## Failure returns of insert and remove -/

theorem arrayList_insert_fail {N : Nat} {T : Type} [Elem T] (a : ArrayList N) (p : Int)
    (v : T)
    (h : ¬ (1 ≤ p ∧ p ≤ a.itemCount + 1 ∧ a.itemCount < a.maxItems)) :
    a.insert p v = .ok false a := by
  have hable : (decide (p ≥ 1) && decide (p ≤ a.itemCount + 1) &&
      decide (a.itemCount < a.maxItems)) = false := by
    rw [← Bool.not_eq_true]
    intro hc
    simp only [Bool.and_eq_true, decide_eq_true_eq] at hc
    exact h ⟨hc.1.1, hc.1.2, hc.2⟩
  unfold ArrayList.insert
  simp only [hable]
  rfl

theorem linkedList_insert_fail (l : LinkedList) (p v : Int)
    (h : ¬ (1 ≤ p ∧ p ≤ l.itemCount + 1)) :
    l.insert p v = .ok false l := by
  have hable : (decide (p ≥ 1) && decide (p ≤ l.itemCount + 1)) = false := by
    rw [← Bool.not_eq_true]
    intro hc
    simp only [Bool.and_eq_true, decide_eq_true_eq] at hc
    exact h ⟨hc.1, hc.2⟩
  unfold LinkedList.insert
  simp only [hable]
  rfl

theorem arrayList_remove_fail {N : Nat} (a : ArrayList N) (p : Int)
    (h : ¬ (1 ≤ p ∧ p ≤ a.itemCount)) :
    a.remove p = .ok false a := by
  have hable : (decide (p ≥ 1) && decide (p ≤ a.itemCount)) = false := by
    rw [← Bool.not_eq_true]
    intro hc
    simp only [Bool.and_eq_true, decide_eq_true_eq] at hc
    exact h ⟨hc.1, hc.2⟩
  unfold ArrayList.remove
  simp only [hable]
  rfl

theorem linkedList_remove_fail (l : LinkedList) (p : Int)
    (h : ¬ (1 ≤ p ∧ p ≤ l.itemCount)) :
    l.remove p = .ok false l := by
  have hable : (decide (p ≥ 1) && decide (p ≤ l.itemCount)) = false := by
    rw [← Bool.not_eq_true]
    intro hc
    simp only [Bool.and_eq_true, decide_eq_true_eq] at hc
    exact h ⟨hc.1, hc.2⟩
  unfold LinkedList.remove
  simp only [hable]
  rfl

theorem LinkedList.wf_iff (l : LinkedList) : l.wf ↔ ∃ s, l.toSeq = some s := by
  unfold LinkedList.wf
  rw [Option.isSome_iff_exists]

theorem LinkedList.length_of_toSeq (l : LinkedList) (s : List Int) (hs : l.toSeq = some s) :
    (s.length : Int) = l.itemCount := by
  obtain ⟨cs, _, hmap, hlen⟩ := (LinkedList.toSeq_eq_some_iff l s).1 hs
  rw [← hlen, ← hmap, List.length_map]

/-- C5: on both backings `insert(p, v)` returns a boolean, which is true exactly when
`1 <= p <= length + 1` and, for the ArrayList only, `itemCount < maxItems`; when it is false
the state after the call is the state before it. For the ArrayList this holds at every
element type `T`. -/
theorem insert_returns_bool {N : Nat} {T : Type} [Elem T] (a : ArrayList N)
    (l : LinkedList) (p : Int) (v : T) (w : Int) (ha : a.wf) (hl : l.wf) :
    (∃ (r : Bool) (b : ArrayList N), a.insert p v = .ok r b ∧
        (r = true ↔ 1 ≤ p ∧ p ≤ a.getLength + 1 ∧ a.itemCount < a.maxItems) ∧
        (r = false → b = a)) ∧
    (∃ (r : Bool) (b : LinkedList), l.insert p w = .ok r b ∧
        (r = true ↔ 1 ≤ p ∧ p ≤ l.getLength + 1) ∧
        (r = false → b = l)) := by
  constructor
  · by_cases hc : 1 ≤ p ∧ p ≤ a.itemCount + 1 ∧ a.itemCount < a.maxItems
    · obtain ⟨items2, hrun, _, _⟩ := arrayList_insert_run a p v ha hc.1 hc.2.1 hc.2.2
      exact ⟨true, _, hrun, by simpa [ArrayList.getLength] using hc,
        fun h => Bool.noConfusion h⟩
    · exact ⟨false, a, arrayList_insert_fail a p v hc,
        by simpa [ArrayList.getLength] using hc, fun _ => rfl⟩
  · by_cases hc : 1 ≤ p ∧ p ≤ l.itemCount + 1
    · obtain ⟨s, hs⟩ := (LinkedList.wf_iff l).1 hl
      have hlen := LinkedList.length_of_toSeq l s hs
      obtain ⟨b, hrun, _, _⟩ :=
        linkedList_insert_run l s p w hs hc.1 (by rw [hlen]; exact hc.2)
      exact ⟨true, b, hrun, by simpa [LinkedList.getLength] using hc,
        fun h => Bool.noConfusion h⟩
    · exact ⟨false, l, linkedList_insert_fail l p w hc,
        by simpa [LinkedList.getLength] using hc, fun _ => rfl⟩

theorem insert_returns_bool_witness :
    (∃ (r : Bool) (b : ArrayList 64), ArrayList.sample.insert 4 (7 : Int) = .ok r b ∧
        (r = true ↔ 1 ≤ (4 : Int) ∧ (4 : Int) ≤ ArrayList.sample.getLength + 1 ∧
          ArrayList.sample.itemCount < ArrayList.sample.maxItems) ∧
        (r = false → b = ArrayList.sample)) ∧
    (∃ (r : Bool) (b : LinkedList), LinkedList.sample.insert 4 7 = .ok r b ∧
        (r = true ↔ 1 ≤ (4 : Int) ∧ (4 : Int) ≤ LinkedList.sample.getLength + 1) ∧
        (r = false → b = LinkedList.sample)) :=
  insert_returns_bool ArrayList.sample LinkedList.sample 4 (7 : Int) 7 (by decide) (by decide)

/-- C6: on both backings `remove(p)` returns a boolean, which is true exactly when
`1 <= p <= length`; when it is false the state after the call is the state before it, and
on an empty list every call returns false. -/
theorem remove_returns_bool {N : Nat} (a : ArrayList N) (l : LinkedList) (p : Int)
    (ha : a.wf) (hl : l.wf) :
    (∃ (r : Bool) (b : ArrayList N), a.remove p = .ok r b ∧
        (r = true ↔ 1 ≤ p ∧ p ≤ a.getLength) ∧
        (r = false → b = a) ∧
        (a.isEmpty = true → r = false)) ∧
    (∃ (r : Bool) (b : LinkedList), l.remove p = .ok r b ∧
        (r = true ↔ 1 ≤ p ∧ p ≤ l.getLength) ∧
        (r = false → b = l) ∧
        (l.isEmpty = true → r = false)) := by
  constructor
  · by_cases hc : 1 ≤ p ∧ p ≤ a.itemCount
    · obtain ⟨items1, hrun, _, _⟩ := arrayList_remove_run a p ha hc.1 hc.2
      refine ⟨true, _, hrun, by simpa [ArrayList.getLength] using hc,
        fun h => Bool.noConfusion h, ?_⟩
      intro he
      simp only [ArrayList.isEmpty, decide_eq_true_eq] at he
      omega
    · exact ⟨false, a, arrayList_remove_fail a p hc,
        by simpa [ArrayList.getLength] using hc, fun _ => rfl, fun _ => rfl⟩
  · by_cases hc : 1 ≤ p ∧ p ≤ l.itemCount
    · obtain ⟨s, hs⟩ := (LinkedList.wf_iff l).1 hl
      have hlen := LinkedList.length_of_toSeq l s hs
      obtain ⟨b, hrun, _, _⟩ :=
        linkedList_remove_run l s p hs hc.1 (by rw [hlen]; exact hc.2)
      refine ⟨true, b, hrun, by simpa [LinkedList.getLength] using hc,
        fun h => Bool.noConfusion h, ?_⟩
      intro he
      simp only [LinkedList.isEmpty, decide_eq_true_eq] at he
      omega
    · exact ⟨false, l, linkedList_remove_fail l p hc,
        by simpa [LinkedList.getLength] using hc, fun _ => rfl, fun _ => rfl⟩

theorem remove_returns_bool_witness :
    (∃ (r : Bool) (b : ArrayList 64), (ArrayList.new 64).remove 1 = .ok r b ∧
        (r = true ↔ 1 ≤ (1 : Int) ∧ (1 : Int) ≤ (ArrayList.new 64).getLength) ∧
        (r = false → b = ArrayList.new 64) ∧
        ((ArrayList.new 64).isEmpty = true → r = false)) ∧
    (∃ (r : Bool) (b : LinkedList), LinkedList.sample.remove 1 = .ok r b ∧
        (r = true ↔ 1 ≤ (1 : Int) ∧ (1 : Int) ≤ LinkedList.sample.getLength) ∧
        (r = false → b = LinkedList.sample) ∧
        (LinkedList.sample.isEmpty = true → r = false)) :=
  remove_returns_bool (ArrayList.new 64) LinkedList.sample 1 (by decide) (by decide)

/-! ## getEntry and setEntry -/

theorem arrayList_getEntry_run {N : Nat} (a : ArrayList N) (p : Int) (hwf : a.wf)
    (hp1 : 1 ≤ p) (hp2 : p ≤ a.itemCount) :
    ∃ x, a.getEntry p = .ok x a ∧ a.toSeq[(p - 1).toNat]? = some x := by
  obtain ⟨h1, h2, h3, h4⟩ := hwf
  obtain ⟨k, hk⟩ := Int.eq_ofNat_of_zero_le (show 0 ≤ p - 1 by omega)
  have hklt : k < a.items.length := by omega
  have hable : (decide (p ≥ 1) && decide (p ≤ a.itemCount)) = true := by
    simp [hp1, hp2]
  refine ⟨a.items.getD k 0, ?_, ?_⟩
  · unfold ArrayList.getEntry
    simp only [hable, if_true, hk, readSlot_ok a.items k hklt]
  · have e2 : (p - 1).toNat = k := by omega
    rw [e2, ArrayList.toSeq, List.getElem?_take_of_lt (by omega)]
    exact (getD_eq_of_getElem? a.items k hklt).symm

theorem arrayList_getEntry_fail {N : Nat} (a : ArrayList N) (p : Int)
    (h : ¬ (1 ≤ p ∧ p ≤ a.itemCount)) :
    a.getEntry p = .invalidArgument
      ("getEntry() called with an empty list or " ++ "invalid position.") a := by
  have hable : (decide (p ≥ 1) && decide (p ≤ a.itemCount)) = false := by
    rw [← Bool.not_eq_true]
    intro hc
    simp only [Bool.and_eq_true, decide_eq_true_eq] at hc
    exact h ⟨hc.1, hc.2⟩
  unfold ArrayList.getEntry
  simp only [hable]
  rfl

theorem linkedList_getEntry_run (l : LinkedList) (s : List Int) (p : Int)
    (hs : l.toSeq = some s) (hp1 : 1 ≤ p) (hp2 : p ≤ (s.length : Int)) :
    ∃ x, l.getEntry p = .ok x l ∧ s[(p - 1).toNat]? = some x := by
  obtain ⟨cs, hseg, hmap, hlen⟩ := (LinkedList.toSeq_eq_some_iff l s).1 hs
  have hsl : s.length = cs.length := by rw [← hmap, List.length_map]
  obtain ⟨j, hj⟩ := Int.eq_ofNat_of_zero_le (show 0 ≤ p - 1 by omega)
  obtain ⟨c1, c, c2, hsplit, hc1⟩ := exists_split_at cs j (by omega)
  subst hsplit
  have hp : p = (c1.length : Int) + 1 := by omega
  subst hp
  obtain ⟨r, hs1, hs2⟩ :=
    (LinkedList.isSeg_append l.heap c1 (c :: c2) l.headPtr none).1 hseg
  rw [LinkedList.isSeg_cons] at hs2
  obtain ⟨hr, nx, hc, _⟩ := hs2
  subst hr
  have hable : (decide ((c1.length : Int) + 1 ≥ 1) &&
      decide ((c1.length : Int) + 1 ≤ l.itemCount)) = true := by
    have h1 : (c1.length : Int) + 1 ≥ 1 := by omega
    have h2 : (c1.length : Int) + 1 ≤ l.itemCount := by omega
    simp [h1, h2]
  refine ⟨c.2, ?_, ?_⟩
  · unfold LinkedList.getEntry
    simp only [hable, if_true,
      LinkedList.getNodeAt_isSeg l c1 (some c.1) hs1 (by omega),
      Node.getItem_live _ _ _ hc]
  · have hk : ((c1.length : Int) + 1 - 1).toNat = (c1.map Prod.snd).length := by
      simp
    rw [hk, ← hmap, List.map_append, List.getElem?_append_right (le_refl _)]
    simp

theorem linkedList_getEntry_fail (l : LinkedList) (p : Int)
    (h : ¬ (1 ≤ p ∧ p ≤ l.itemCount)) :
    l.getEntry p = .invalidArgument
      ("getEntry() called with an empty list or " ++ "invalid position.") l := by
  have hable : (decide (p ≥ 1) && decide (p ≤ l.itemCount)) = false := by
    rw [← Bool.not_eq_true]
    intro hc
    simp only [Bool.and_eq_true, decide_eq_true_eq] at hc
    exact h ⟨hc.1, hc.2⟩
  unfold LinkedList.getEntry
  simp only [hable]
  rfl

/-- C7: on both backings, for a list holding the sequence `s` and any integer position `p`,
`getEntry(p)` returns the `p`-th element of `s` (1-based) when `1 <= p <= length(s)` and
otherwise throws the invalid-argument error; in both cases the list is left as it was. -/
theorem getEntry_spec {N : Nat} (a : ArrayList N) (l : LinkedList) (s : List Int) (p : Int)
    (ha : a.wf) (hl : l.toSeq = some s) :
    ((1 ≤ p ∧ p ≤ (a.toSeq.length : Int)) →
        ∃ x, a.getEntry p = .ok x a ∧ a.toSeq[(p - 1).toNat]? = some x) ∧
    (¬ (1 ≤ p ∧ p ≤ (a.toSeq.length : Int)) →
        ∃ msg, a.getEntry p = .invalidArgument msg a) ∧
    ((1 ≤ p ∧ p ≤ (s.length : Int)) →
        ∃ x, l.getEntry p = .ok x l ∧ s[(p - 1).toNat]? = some x) ∧
    (¬ (1 ≤ p ∧ p ≤ (s.length : Int)) →
        ∃ msg, l.getEntry p = .invalidArgument msg l) := by
  have hla := ArrayList.toSeq_length a ha
  have hll := LinkedList.length_of_toSeq l s hl
  refine ⟨?_, ?_, ?_, ?_⟩
  · intro hp
    exact arrayList_getEntry_run a p ha hp.1 (by rw [← hla]; exact hp.2)
  · intro hp
    exact ⟨_, arrayList_getEntry_fail a p (by rw [← hla]; exact hp)⟩
  · intro hp
    exact linkedList_getEntry_run l s p hl hp.1 hp.2
  · intro hp
    exact ⟨_, linkedList_getEntry_fail l p (by rw [← hll]; exact hp)⟩

theorem getEntry_spec_witness :
    ((1 ≤ (3 : Int) ∧ (3 : Int) ≤ (ArrayList.sample.toSeq.length : Int)) →
        ∃ x, ArrayList.sample.getEntry 3 = .ok x ArrayList.sample ∧
          ArrayList.sample.toSeq[((3 : Int) - 1).toNat]? = some x) ∧
    (¬ (1 ≤ (3 : Int) ∧ (3 : Int) ≤ (ArrayList.sample.toSeq.length : Int)) →
        ∃ msg, ArrayList.sample.getEntry 3 = .invalidArgument msg ArrayList.sample) ∧
    ((1 ≤ (3 : Int) ∧ (3 : Int) ≤ (([30, 20, 10] : List Int).length : Int)) →
        ∃ x, LinkedList.sample.getEntry 3 = .ok x LinkedList.sample ∧
          ([30, 20, 10] : List Int)[((3 : Int) - 1).toNat]? = some x) ∧
    (¬ (1 ≤ (3 : Int) ∧ (3 : Int) ≤ (([30, 20, 10] : List Int).length : Int)) →
        ∃ msg, LinkedList.sample.getEntry 3 = .invalidArgument msg LinkedList.sample) :=
  getEntry_spec ArrayList.sample LinkedList.sample [30, 20, 10] 3 (by decide) (by decide)

theorem arrayList_setEntry_run {N : Nat} {T : Type} [Elem T] (a : ArrayList N) (p : Int)
    (v : T) (hwf : a.wf) (hp1 : 1 ≤ p) (hp2 : p ≤ a.itemCount) :
    a.setEntry p v =
      .ok () { a with items := a.items.set (p - 1).toNat (Elem.toInt v) } := by
  obtain ⟨h1, h2, h3, h4⟩ := hwf
  obtain ⟨k, hk⟩ := Int.eq_ofNat_of_zero_le (show 0 ≤ p - 1 by omega)
  have hklt : k < a.items.length := by omega
  have hable : (decide (p ≥ 1) && decide (p ≤ a.itemCount)) = true := by
    simp [hp1, hp2]
  have e2 : (p - 1).toNat = k := by omega
  unfold ArrayList.setEntry
  simp only [hable, if_true, hk, writeSlot_ok a.items k (Elem.toInt v) hklt, e2,
    Int.toNat_ofNat]

theorem arrayList_setEntry_fail {N : Nat} {T : Type} [Elem T] (a : ArrayList N) (p : Int)
    (v : T)
    (h : ¬ (1 ≤ p ∧ p ≤ a.itemCount)) :
    a.setEntry p v = .invalidArgument
      ("setEntry() called with an empty list or " ++ "invalid position.") a := by
  have hable : (decide (p ≥ 1) && decide (p ≤ a.itemCount)) = false := by
    rw [← Bool.not_eq_true]
    intro hc
    simp only [Bool.and_eq_true, decide_eq_true_eq] at hc
    exact h ⟨hc.1, hc.2⟩
  unfold ArrayList.setEntry
  simp only [hable]
  rfl

/-- C9 (evaluation of the code): on the `ArrayList<double, 64>` holding `[30, 10]`,
`setEntry(2, 2.5)` returns normally but the block is `int items[N]`, so the slot receives
`int(2.5) = 2`: the logical sequence is `[30, 2]`, which is not `[30, 2.5]`, and it is the
very state that `setEntry(2, 2.0)` leaves. -/
theorem arrayList_setEntry_truncates :
    ∃ b : ArrayList 64,
      ArrayList.sample.setEntry 2 (⟨5, 1⟩ : Dbl) = .ok () b ∧
      ArrayList.sample.toSeq = [30, 10] ∧
      b.toSeq = [30, 2] ∧
      Dbl.toRat ⟨5, 1⟩ = 5 / 2 ∧
      b.toSeq.map (fun i : Int => (i : ℚ)) ≠
        (ArrayList.sample.toSeq.map (fun i : Int => (i : ℚ))).set 1 (Dbl.toRat ⟨5, 1⟩) ∧
      ArrayList.sample.setEntry 2 (⟨2, 0⟩ : Dbl) = .ok () b := by
  refine ⟨{ itemCount := 2, maxItems := 64, items := [30, 2] ++ List.replicate 62 0 },
    by decide, by decide, by decide, by norm_num [Dbl.toRat], ?_, by decide⟩
  have hseq : ({ itemCount := 2, maxItems := 64, items := [30, 2] ++ List.replicate 62 0 } :
      ArrayList 64).toSeq = [30, 2] := by decide
  have hseq0 : ArrayList.sample.toSeq = [30, 10] := by decide
  rw [hseq, hseq0]
  norm_num [Dbl.toRat]

theorem linkedList_setEntry_run (l : LinkedList) (s : List Int) (p v : Int)
    (hs : l.toSeq = some s) (hp1 : 1 ≤ p) (hp2 : p ≤ (s.length : Int)) :
    ∃ b : LinkedList, l.setEntry p v = .ok () b ∧
      b.toSeq = some (s.set (p - 1).toNat v) ∧ b.itemCount = l.itemCount := by
  obtain ⟨cs, hseg, hmap, hlen⟩ := (LinkedList.toSeq_eq_some_iff l s).1 hs
  have hsl : s.length = cs.length := by rw [← hmap, List.length_map]
  obtain ⟨j, hj⟩ := Int.eq_ofNat_of_zero_le (show 0 ≤ p - 1 by omega)
  obtain ⟨c1, c, c2, hsplit, hc1⟩ := exists_split_at cs j (by omega)
  subst hsplit
  have hp : p = (c1.length : Int) + 1 := by omega
  subst hp
  have hnd := LinkedList.isSeg_nodup l.heap _ l.headPtr hseg
  obtain ⟨r, hs1, hs2⟩ :=
    (LinkedList.isSeg_append l.heap c1 (c :: c2) l.headPtr none).1 hseg
  rw [LinkedList.isSeg_cons] at hs2
  obtain ⟨hr, nx, hc, hs3⟩ := hs2
  subst hr
  rw [List.map_append, List.map_cons, List.nodup_append] at hnd
  obtain ⟨_, hnd2, hdisj⟩ := hnd
  rw [List.nodup_cons] at hnd2
  have hc_c1 : c.1 ∉ c1.map Prod.fst := fun hm => hdisj hm (List.mem_cons_self _ _)
  have hc_c2 : c.1 ∉ c2.map Prod.fst := hnd2.1
  have hcl : c.1 < l.heap.length := LinkedList.lt_of_getElem?_some _ _ _ hc
  have hle : (c1.length : Int) + 1 ≤ l.itemCount := by
    rw [← hlen]; simp only [List.length_append, List.length_cons]; omega
  refine ⟨{ l with heap := l.heap.set c.1 (some { (⟨c.2, nx⟩ : Node) with value := v }) },
    ?_, ?_, rfl⟩
  · unfold LinkedList.setEntry
    simp only [LinkedList.getNodeAt_isSeg l c1 (some c.1) hs1 hle,
      Node.setItem_live _ _ _ v hc]
  · rw [LinkedList.toSeq_eq_some_iff]
    refine ⟨c1 ++ (c.1, v) :: c2, ?_, ?_, ?_⟩
    · simp only
      rw [LinkedList.isSeg_append]
      refine ⟨some c.1, LinkedList.isSeg_set _ _ _ _ _ _ hs1 hc_c1, ?_⟩
      rw [LinkedList.isSeg_cons]
      refine ⟨rfl, nx, ?_, LinkedList.isSeg_set _ _ _ _ _ _ hs3 hc_c2⟩
      rw [List.getElem?_set_self hcl]
    · have hk : ((c1.length : Int) + 1 - 1).toNat = (c1.map Prod.snd).length := by
        simp
      rw [hk, ← hmap, List.map_append, List.map_append,
        List.set_append_right _ _ (le_refl _)]
      simp
    · simp only [List.length_append, List.length_cons] at hlen ⊢
      exact hlen

/-- C10: on a LinkedList whose chain holds the sequence `s`, `setEntry(p, v)` with
`1 <= p <= length(s)` returns normally; afterwards the chain holds `s` with only its `p`-th
element replaced by `v`, `getEntry(p)` returns `v`, `getEntry(q)` gives what it gave before
for every `q != p`, and `itemCount` is unchanged. -/
theorem linkedList_setEntry_valid (l : LinkedList) (s : List Int) (p v : Int)
    (hs : l.toSeq = some s) (hp1 : 1 ≤ p) (hp2 : p ≤ (s.length : Int)) :
    ∃ b : LinkedList, l.setEntry p v = .ok () b ∧
      b.toSeq = some (s.set (p - 1).toNat v) ∧
      b.getEntry p = .ok v b ∧
      (∀ q : Int, q ≠ p → 1 ≤ q → q ≤ (s.length : Int) →
        ∃ x, l.getEntry q = .ok x l ∧ b.getEntry q = .ok x b) ∧
      (∀ q : Int, ¬ (1 ≤ q ∧ q ≤ (s.length : Int)) →
        ∃ msg, l.getEntry q = .invalidArgument msg l ∧
          b.getEntry q = .invalidArgument msg b) ∧
      b.itemCount = l.itemCount := by
  obtain ⟨b, hrun, hb, hcount⟩ := linkedList_setEntry_run l s p v hs hp1 hp2
  have hll := LinkedList.length_of_toSeq l s hs
  refine ⟨b, hrun, hb, ?_, ?_, ?_, hcount⟩
  · obtain ⟨x, hx, hx2⟩ :=
      linkedList_getEntry_run b _ p hb hp1 (by rw [List.length_set]; exact hp2)
    rw [List.getElem?_set_self (by omega)] at hx2
    rw [hx, ← Option.some.inj hx2]
  · intro q hq hq1 hq2
    obtain ⟨x, hx, hx2⟩ := linkedList_getEntry_run l s q hs hq1 hq2
    obtain ⟨y, hy, hy2⟩ :=
      linkedList_getEntry_run b _ q hb hq1 (by rw [List.length_set]; exact hq2)
    rw [List.getElem?_set_ne (by omega), hx2] at hy2
    refine ⟨x, hx, ?_⟩
    rw [hy, ← Option.some.inj hy2]
  · intro q hq
    refine ⟨_, linkedList_getEntry_fail l q (by rw [← hll]; exact hq), ?_⟩
    exact linkedList_getEntry_fail b q (by rw [hcount, ← hll]; exact hq)

theorem linkedList_setEntry_valid_witness :
    ∃ b : LinkedList, LinkedList.sample.setEntry 2 7 = .ok () b ∧
      b.toSeq = some (([30, 20, 10] : List Int).set ((2 : Int) - 1).toNat 7) ∧
      b.getEntry 2 = .ok 7 b ∧
      (∀ q : Int, q ≠ 2 → 1 ≤ q → q ≤ (([30, 20, 10] : List Int).length : Int) →
        ∃ x, LinkedList.sample.getEntry q = .ok x LinkedList.sample ∧
          b.getEntry q = .ok x b) ∧
      (∀ q : Int, ¬ (1 ≤ q ∧ q ≤ (([30, 20, 10] : List Int).length : Int)) →
        ∃ msg, LinkedList.sample.getEntry q = .invalidArgument msg LinkedList.sample ∧
          b.getEntry q = .invalidArgument msg b) ∧
      b.itemCount = LinkedList.sample.itemCount :=
  linkedList_setEntry_valid LinkedList.sample [30, 20, 10] 2 7 (by decide) (by decide)
    (by decide)

/-! ## LinkedList.setEntry at an invalid position -/

theorem linkedList_setEntry_invalid (l : LinkedList) (p v : Int)
    (h : ¬ (1 ≤ p ∧ p ≤ l.itemCount)) :
    l.setEntry p v = .fault .assertion := by
  have hc : ¬ (p ≥ 1 ∧ p ≤ l.itemCount) := h
  unfold LinkedList.setEntry LinkedList.getNodeAt
  rw [if_neg hc]

/-- C8 (evaluation of the code): `LinkedList::setEntry` at an invalid position does not
throw `std::invalid_argument`. With `assert` active the call dies on `getNodeAt`'s
assertion, on an empty list and on a list of three elements alike; compiled with `NDEBUG`
it dereferences `nullptr` on the empty list and past the end, and for position 0 on a
non-empty list it returns normally after overwriting the first element. -/
theorem linkedList_setEntry_invalid_no_throw :
    LinkedList.new.setEntry 1 5 = .fault .assertion ∧
    LinkedList.sample.setEntry 0 5 = .fault .assertion ∧
    LinkedList.sample.setEntry 4 5 = .fault .assertion ∧
    LinkedList.new.setEntryNoAssert 1 5 = .fault .nullDeref ∧
    LinkedList.sample.setEntryNoAssert 4 5 = .fault .nullDeref ∧
    (∃ b : LinkedList, LinkedList.sample.setEntryNoAssert 0 5 = .ok () b ∧
      LinkedList.sample.toSeq = some [30, 20, 10] ∧ b.toSeq = some [5, 20, 10]) := by
  refine ⟨by decide, by decide, by decide, by decide, by decide, ?_⟩
  exact ⟨_, rfl, by decide, by decide⟩

/-! ## Round trip: remove followed by insert of the removed value -/

theorem eraseIdx_reinsert (s : List Int) (k : Nat) (v : Int) (hv : s[k]? = some v) :
    (s.eraseIdx k).take k ++ [v] ++ (s.eraseIdx k).drop k = s := by
  have hk : k < s.length := LinkedList.lt_of_getElem?_some s k v hv
  obtain ⟨s1, x, s2, hsplit, hlen⟩ := exists_split_at s k hk
  subst hsplit
  have hx : x = v := by
    rw [List.getElem?_append_right (by omega), hlen] at hv
    simpa using hv
  subst hx
  have he : (s1 ++ x :: s2).eraseIdx k = s1 ++ s2 := by
    rw [List.eraseIdx_append_of_length_le (by omega), hlen]
    simp
  rw [he, List.take_left' hlen, List.drop_left' hlen]
  simp

theorem arrayList_round_trip {N : Nat} (a : ArrayList N) (p : Int) (ha : a.wf)
    (hp1 : 1 ≤ p) (hp2 : p ≤ a.itemCount) :
    ∃ (v : Int) (a1 a2 : ArrayList N), a.getEntry p = .ok v a ∧
      a.remove p = .ok true a1 ∧ a1.insert p v = .ok true a2 ∧ a2.toSeq = a.toSeq := by
  obtain ⟨v, hget, hv⟩ := arrayList_getEntry_run a p ha hp1 hp2
  obtain ⟨items1, hrem, hlen1, hseq1⟩ := arrayList_remove_run a p ha hp1 hp2
  obtain ⟨h1, h2, h3, h4⟩ := ha
  have hwf1 : ({ a with items := items1, itemCount := a.itemCount - 1 } : ArrayList N).wf := by
    refine ⟨?_, h2, ?_, ?_⟩
    · simp only; omega
    · simp only; omega
    · simp only; omega
  obtain ⟨items2, hins, _, hseq2⟩ :=
    arrayList_insert_run _ p v hwf1 hp1 (by simp only; omega) (by simp only; omega)
  refine ⟨v, _, _, hget, hrem, hins, ?_⟩
  have hseq1b : ({ a with items := items1, itemCount := a.itemCount - 1 } :
      ArrayList N).toSeq = a.toSeq.eraseIdx (p - 1).toNat := hseq1
  rw [hseq1b] at hseq2
  have hgoal : ({ a with items := items2, itemCount := a.itemCount - 1 + 1 } :
      ArrayList N).toSeq = a.toSeq := by
    rw [← eraseIdx_reinsert a.toSeq (p - 1).toNat v hv]
    exact hseq2
  exact hgoal

theorem linkedList_round_trip (l : LinkedList) (s : List Int) (p : Int)
    (hl : l.toSeq = some s) (hp1 : 1 ≤ p) (hp2 : p ≤ (s.length : Int)) :
    ∃ (v : Int) (l1 l2 : LinkedList), l.getEntry p = .ok v l ∧
      l.remove p = .ok true l1 ∧ l1.insert p v = .ok true l2 ∧ l2.toSeq = some s := by
  obtain ⟨v, hget, hv⟩ := linkedList_getEntry_run l s p hl hp1 hp2
  obtain ⟨l1, hrem, hseq1, _⟩ := linkedList_remove_run l s p hl hp1 hp2
  have hk : (p - 1).toNat < s.length := LinkedList.lt_of_getElem?_some s _ v hv
  obtain ⟨l2, hins, hseq2, _⟩ :=
    linkedList_insert_run l1 _ p v hseq1 hp1
      (by rw [List.length_eraseIdx, if_pos hk]; omega)
  refine ⟨v, l1, l2, hget, hrem, hins, ?_⟩
  rw [hseq2, eraseIdx_reinsert s (p - 1).toNat v hv]

/-- C11: round-trip law on both backings. For a list holding the sequence `s` and a position
with `1 <= position <= length(s)`, with `v = getEntry(position)`, the call
`remove(position)` followed at once by `insert(position, v)` returns true both times and
leaves the list holding `s` again. -/
theorem remove_insert_round_trip {N : Nat} (a : ArrayList N) (l : LinkedList) (s : List Int)
    (p q : Int) (ha : a.wf) (hp1 : 1 ≤ p) (hp2 : p ≤ (a.toSeq.length : Int))
    (hl : l.toSeq = some s) (hq1 : 1 ≤ q) (hq2 : q ≤ (s.length : Int)) :
    (∃ (v : Int) (a1 a2 : ArrayList N), a.getEntry p = .ok v a ∧
        a.remove p = .ok true a1 ∧ a1.insert p v = .ok true a2 ∧ a2.toSeq = a.toSeq) ∧
    (∃ (v : Int) (l1 l2 : LinkedList), l.getEntry q = .ok v l ∧
        l.remove q = .ok true l1 ∧ l1.insert q v = .ok true l2 ∧ l2.toSeq = some s) := by
  rw [ArrayList.toSeq_length a ha] at hp2
  exact ⟨arrayList_round_trip a p ha hp1 hp2, linkedList_round_trip l s q hl hq1 hq2⟩

theorem remove_insert_round_trip_witness :
    (∃ (v : Int) (a1 a2 : ArrayList 64), ArrayList.sample.getEntry 1 = .ok v ArrayList.sample ∧
        ArrayList.sample.remove 1 = .ok true a1 ∧ a1.insert 1 v = .ok true a2 ∧
        a2.toSeq = ArrayList.sample.toSeq) ∧
    (∃ (v : Int) (l1 l2 : LinkedList), LinkedList.sample.getEntry 2 = .ok v LinkedList.sample ∧
        LinkedList.sample.remove 2 = .ok true l1 ∧ l1.insert 2 v = .ok true l2 ∧
        l2.toSeq = some [30, 20, 10]) :=
  remove_insert_round_trip ArrayList.sample LinkedList.sample [30, 20, 10] 1 2 (by decide)
    (by decide) (by decide) (by decide) (by decide) (by decide)

/-! ## ArrayList.insert at capacity -/

/-- C12 (counterexample): on a fresh list of capacity 64, `insert(0, 5)` returns false with
the list unchanged although `itemCount` (0) is not `maxItems` (64). -/
theorem arrayList_insert_false_below_capacity :
    (ArrayList.new 64).insert 0 (5 : Int) = .ok false (ArrayList.new 64) ∧
    ¬ ((ArrayList.new 64).itemCount = (ArrayList.new 64).maxItems) := by
  constructor
  · exact arrayList_insert_fail (ArrayList.new 64) 0 (5 : Int) (by decide)
  · decide

/-- C12 (amended): on an ArrayList satisfying the class invariant, `insert(position, value)`
returns false exactly when `itemCount == maxItems` or `position` is outside
`1 .. itemCount + 1`, and then nothing is mutated; so for a position inside that range it
returns false exactly when `itemCount == maxItems`, and at `itemCount == maxItems` it returns
false whatever the position. This holds at every element type `T`. -/
theorem arrayList_insert_false_iff {N : Nat} {T : Type} [Elem T] (a : ArrayList N) (p : Int)
    (v : T) (ha : a.wf) :
    ∃ (r : Bool) (b : ArrayList N), a.insert p v = .ok r b ∧
      (r = false ↔ (a.itemCount = a.maxItems ∨ p < 1 ∨ a.itemCount + 1 < p)) ∧
      (r = false → b = a) ∧
      (1 ≤ p → p ≤ a.itemCount + 1 → (r = false ↔ a.itemCount = a.maxItems)) ∧
      (a.itemCount = a.maxItems → r = false) := by
  have hle : a.itemCount ≤ a.maxItems := ha.2.2.2
  by_cases hc : 1 ≤ p ∧ p ≤ a.itemCount + 1 ∧ a.itemCount < a.maxItems
  · obtain ⟨items2, hrun, _, _⟩ := arrayList_insert_run a p v ha hc.1 hc.2.1 hc.2.2
    refine ⟨true, _, hrun, ?_, fun h => Bool.noConfusion h, ?_, ?_⟩
    · constructor
      · intro h; exact Bool.noConfusion h
      · intro h; omega
    · intro _ _
      constructor
      · intro h; exact Bool.noConfusion h
      · intro h; omega
    · intro h; omega
  · refine ⟨false, a, arrayList_insert_fail a p v hc, ?_, fun _ => rfl, ?_, fun _ => rfl⟩
    · constructor
      · intro _
        by_contra hcon
        exact hc (by omega)
      · intro _; rfl
    · intro h1 h2
      constructor
      · intro _
        by_contra hcon
        exact hc ⟨h1, h2, by omega⟩
      · intro _; rfl

theorem arrayList_insert_false_iff_witness :
    ∃ (r : Bool) (b : ArrayList 64), ArrayList.sample.insert 4 (7 : Int) = .ok r b ∧
      (r = false ↔ (ArrayList.sample.itemCount = ArrayList.sample.maxItems ∨ (4 : Int) < 1 ∨
        ArrayList.sample.itemCount + 1 < 4)) ∧
      (r = false → b = ArrayList.sample) ∧
      (1 ≤ (4 : Int) → (4 : Int) ≤ ArrayList.sample.itemCount + 1 →
        (r = false ↔ ArrayList.sample.itemCount = ArrayList.sample.maxItems)) ∧
      (ArrayList.sample.itemCount = ArrayList.sample.maxItems → r = false) :=
  arrayList_insert_false_iff ArrayList.sample 4 (7 : Int) (by decide)

/-! ## The capacity scenario -/

theorem insertEachAtFront_run {N : Nat} {T : Type} [Elem T] :
    ∀ (vs : List T) (a : ArrayList N), a.wf →
      a.itemCount + (vs.length : Int) ≤ a.maxItems →
      ∃ b : ArrayList N, a.insertEachAtFront vs = .ok true b ∧ b.wf ∧
        b.toSeq = (vs.map Elem.toInt).reverse ++ a.toSeq ∧
        b.itemCount = a.itemCount + (vs.length : Int) := by
  intro vs
  induction vs with
  | nil =>
    intro a ha _
    exact ⟨a, rfl, ha, by simp, by simp⟩
  | cons v vs ih =>
    intro a ha hcap
    simp only [List.length_cons] at hcap
    obtain ⟨h1, h2, h3, h4⟩ := ha
    obtain ⟨items2, hrun, hlen2, hseq⟩ :=
      arrayList_insert_run a 1 v ⟨h1, h2, h3, h4⟩ (le_refl _) (by omega) (by omega)
    have hwf1 : ({ a with items := items2, itemCount := a.itemCount + 1 } : ArrayList N).wf := by
      refine ⟨?_, h2, ?_, ?_⟩
      · simp only; omega
      · simp only; omega
      · simp only; omega
    obtain ⟨b, hb, hbwf, hbseq, hbcount⟩ := ih _ hwf1 (by simp only; omega)
    refine ⟨b, ?_, hbwf, ?_, ?_⟩
    · simp only [ArrayList.insertEachAtFront, hrun]
      exact hb
    · have hs1 : ({ a with items := items2, itemCount := a.itemCount + 1 } :
          ArrayList N).toSeq = Elem.toInt v :: a.toSeq := by
        have := hseq
        simpa [ArrayList.toSeq] using this
      rw [hbseq, hs1]
      simp
    · rw [hbcount]
      simp only [List.length_cons]
      push_cast
      ring

/-- What the capacity scenario does at any element type: the 64 inserts at position 1 all
return true and the slots hold the converted values in reverse insertion order; any further
`insert` returns false and changes nothing. -/
theorem capacity_scenario_run {T : Type} [Elem T] (vs : List T)
    (hvs : vs.length = MIN_ARRAY_SIZE) :
    ∃ b : ArrayList MIN_ARRAY_SIZE,
      (ArrayList.new MIN_ARRAY_SIZE).insertEachAtFront vs = .ok true b ∧
      b.toSeq = (vs.map Elem.toInt).reverse ∧ b.getLength = 64 ∧
      ∀ (p : Int) (v : T), b.insert p v = .ok false b := by
  have hwf0 : (ArrayList.new MIN_ARRAY_SIZE).wf := by
    refine ⟨by simp [ArrayList.new], rfl, le_refl _, ?_⟩
    simp [ArrayList.new]
  obtain ⟨b, hb, hbwf, hbseq, hbcount⟩ :=
    insertEachAtFront_run vs (ArrayList.new MIN_ARRAY_SIZE) hwf0
      (by rw [hvs]; simp [ArrayList.new])
  have hseq : b.toSeq = (vs.map Elem.toInt).reverse := by
    rw [hbseq]; simp [ArrayList.toSeq, ArrayList.new]
  have hcount : b.itemCount = 64 := by
    rw [hbcount, hvs]; simp [ArrayList.new, MIN_ARRAY_SIZE]
  have hmax : b.maxItems = 64 := by
    rw [hbwf.2.1]; simp [MIN_ARRAY_SIZE]
  refine ⟨b, hb, hseq, hcount, ?_⟩
  intro p v
  exact arrayList_insert_fail b p v (by omega)

theorem dbl_sixtyfourths_nodup :
    (((List.range 64).map fun i : Nat => (⟨(i : Int), 6⟩ : Dbl)).map Dbl.toRat).Nodup := by
  rw [List.map_map]
  refine (List.nodup_range 64).map ?_
  intro i j h
  simp only [Function.comp, Dbl.toRat] at h
  have h2 : ((i : Int) : ℚ) = ((j : Int) : ℚ) := by
    have hne : ((2 : ℚ) ^ 6) ≠ 0 := by norm_num
    exact (div_left_inj' hne).1 h
  exact_mod_cast h2

/-- C13 (evaluation of the code): on a fresh `ArrayList<double, 64>` the 64 distinct values
`0/64, 1/64, ..., 63/64`, each inserted at position 1, all go in (every `insert` returns
true, the length is 64, a 65th `insert` returns false and changes nothing), but every slot of
`int items[N]` receives `int(i/64) = 0`: the logical sequence is sixty-four zeros and not
the 64 distinct values in reverse insertion order. -/
theorem capacity_scenario_truncates :
    ∃ b : ArrayList MIN_ARRAY_SIZE,
      (ArrayList.new MIN_ARRAY_SIZE).insertEachAtFront
        ((List.range 64).map fun i : Nat => (⟨(i : Int), 6⟩ : Dbl)) = .ok true b ∧
      (((List.range 64).map fun i : Nat => (⟨(i : Int), 6⟩ : Dbl)).map Dbl.toRat).Nodup ∧
      b.getLength = 64 ∧
      b.toSeq = List.replicate 64 0 ∧
      b.toSeq.map (fun i : Int => (i : ℚ)) ≠
        (((List.range 64).map fun i : Nat => (⟨(i : Int), 6⟩ : Dbl)).map Dbl.toRat).reverse ∧
      ∀ (p : Int) (v : Dbl), b.insert p v = .ok false b := by
  obtain ⟨b, hb, hseq, hlen, hfull⟩ :=
    capacity_scenario_run ((List.range 64).map fun i : Nat => (⟨(i : Int), 6⟩ : Dbl))
      (by decide)
  have hzero : (((List.range 64).map fun i : Nat => (⟨(i : Int), 6⟩ : Dbl)).map
      Elem.toInt).reverse = List.replicate 64 0 := by decide
  rw [hzero] at hseq
  refine ⟨b, hb, dbl_sixtyfourths_nodup, hlen, hseq, ?_, hfull⟩
  intro h
  have hn : (b.toSeq.map (fun i : Int => (i : ℚ))).Nodup := by
    rw [h]
    exact List.nodup_reverse.2 dbl_sixtyfourths_nodup
  rw [hseq, List.map_replicate, List.nodup_replicate] at hn
  omega

/-! ## clear, fresh lists and the class invariants -/

theorem clearLoop_run :
    ∀ (cs : List (Nat × Int)) (l : LinkedList), LinkedList.isSeg l.heap l.headPtr cs none →
      (cs.length : Int) = l.itemCount →
      ∃ b : LinkedList, LinkedList.clearLoop cs.length l = .ok () b ∧
        b.headPtr = none ∧ b.itemCount = 0 := by
  intro cs
  induction cs with
  | nil =>
    intro l hseg hlen
    rw [LinkedList.isSeg_nil] at hseg
    have h0 : l.itemCount = 0 := by rw [← hlen]; rfl
    refine ⟨l, ?_, hseg, h0⟩
    unfold LinkedList.clearLoop
    simp [LinkedList.isEmpty, h0]
  | cons c cs ih =>
    intro l hseg hlen
    obtain ⟨b1, hrem, hseg1, hcount1⟩ := LinkedList.remove_head l c cs hseg hlen
    have hlen1 : (cs.length : Int) = b1.itemCount := by
      rw [hcount1, ← hlen]; simp
    obtain ⟨b, hb, hhead, hcount⟩ := ih b1 hseg1 hlen1
    refine ⟨b, ?_, hhead, hcount⟩
    have hne : ¬ (l.itemCount = 0) := by
      rw [← hlen]; simp only [List.length_cons]; omega
    unfold LinkedList.clearLoop
    simp only [LinkedList.isEmpty, hne, decide_False, Bool.not_false, if_true,
      List.length_cons, hrem]
    exact hb

theorem linkedList_clear_run (l : LinkedList) (hl : l.wf) :
    ∃ b : LinkedList, l.clear = .ok () b ∧ b.headPtr = none ∧ b.itemCount = 0 := by
  obtain ⟨s, hs⟩ := (LinkedList.wf_iff l).1 hl
  obtain ⟨cs, hseg, _, hlen⟩ := (LinkedList.toSeq_eq_some_iff l s).1 hs
  have hfuel : l.itemCount.toNat = cs.length := by omega
  unfold LinkedList.clear
  rw [hfuel]
  exact clearLoop_run cs l hseg hlen

theorem toSeq_of_empty (b : LinkedList) (hhead : b.headPtr = none) (hcount : b.itemCount = 0) :
    b.toSeq = some [] := by
  rw [LinkedList.toSeq_eq_some_iff]
  exact ⟨[], by rw [LinkedList.isSeg_nil, hhead], rfl, by rw [hcount]; rfl⟩

/-- C14: `clear()` on both backings terminates and leaves the list empty: afterwards
`isEmpty()` is true and `getLength()` is 0 (the queries do not change the state, so this holds
at every later query), and for the LinkedList `headPtr` is null, so that no node is reachable
and the chain holds the empty sequence. -/
theorem clear_empties {N : Nat} (a : ArrayList N) (l : LinkedList) (hl : l.wf) :
    (∃ b : ArrayList N, a.clear = .ok () b ∧ b.isEmpty = true ∧ b.getLength = 0 ∧
        b.toSeq = []) ∧
    (∃ b : LinkedList, l.clear = .ok () b ∧ b.isEmpty = true ∧ b.getLength = 0 ∧
        b.headPtr = none ∧ b.toSeq = some []) := by
  constructor
  · exact ⟨_, rfl, rfl, rfl, by simp [ArrayList.toSeq]⟩
  · obtain ⟨b, hb, hhead, hcount⟩ := linkedList_clear_run l hl
    refine ⟨b, hb, ?_, hcount, hhead, toSeq_of_empty b hhead hcount⟩
    simp [LinkedList.isEmpty, hcount]

theorem clear_empties_witness :
    (∃ b : ArrayList 64, ArrayList.sample.clear = .ok () b ∧ b.isEmpty = true ∧
        b.getLength = 0 ∧ b.toSeq = []) ∧
    (∃ b : LinkedList, LinkedList.sample.clear = .ok () b ∧ b.isEmpty = true ∧
        b.getLength = 0 ∧ b.headPtr = none ∧ b.toSeq = some []) :=
  clear_empties ArrayList.sample LinkedList.sample (by decide)

/-- C16: a newly constructed ArrayList and a newly constructed LinkedList have
`isEmpty() == true` and `getLength() == 0`, and in every state of either backing `isEmpty()`
is true exactly when `getLength()` is 0. -/
theorem fresh_lists_empty :
    (∀ N : Nat, (ArrayList.new N).isEmpty = true ∧ (ArrayList.new N).getLength = 0) ∧
    (LinkedList.new.isEmpty = true ∧ LinkedList.new.getLength = 0) ∧
    (∀ (N : Nat) (a : ArrayList N), a.isEmpty = true ↔ a.getLength = 0) ∧
    (∀ l : LinkedList, l.isEmpty = true ↔ l.getLength = 0) := by
  refine ⟨fun N => ⟨rfl, rfl⟩, ⟨rfl, rfl⟩, ?_, ?_⟩
  · intro N a
    simp [ArrayList.isEmpty, ArrayList.getLength]
  · intro l
    simp [LinkedList.isEmpty, LinkedList.getLength]

theorem arrayList_new_wf (N : Nat) : (ArrayList.new N).wf := by
  refine ⟨by simp [ArrayList.new], rfl, le_refl _, ?_⟩
  simp [ArrayList.new]

/-- C17: `0 <= itemCount <= maxItems = N` (with a block of `N` slots) holds for a fresh
ArrayList and, from a state where it holds, every call of `insert`, `remove`, `clear`,
`getEntry` and `setEntry` ends without a fault in a state where it holds again, whether the
call succeeds or fails; since a slot access outside `[0, N)` is a fault, every index these
calls read or write lies in `[0, N)`. This holds at every element type `T`. -/
theorem arrayList_capacity_invariant {N : Nat} {T : Type} [Elem T] (a : ArrayList N)
    (p : Int) (v : T) (ha : a.wf) :
    (ArrayList.new N).wf ∧
    (a.insert p v).endsIn ArrayList.wf ∧
    (a.remove p).endsIn ArrayList.wf ∧
    a.clear.endsIn ArrayList.wf ∧
    (a.getEntry p).endsIn ArrayList.wf ∧
    (a.setEntry p v).endsIn ArrayList.wf := by
  have ha0 := ha
  obtain ⟨h1, h2, h3, h4⟩ := ha
  refine ⟨arrayList_new_wf N, ?_, ?_, ?_, ?_, ?_⟩
  · by_cases hc : 1 ≤ p ∧ p ≤ a.itemCount + 1 ∧ a.itemCount < a.maxItems
    · obtain ⟨items2, hrun, hlen, _⟩ := arrayList_insert_run a p v ha0 hc.1 hc.2.1 hc.2.2
      rw [hrun]
      refine ⟨?_, h2, ?_, ?_⟩
      · simp only; omega
      · simp only; omega
      · simp only; omega
    · rw [arrayList_insert_fail a p v hc]
      exact ha0
  · by_cases hc : 1 ≤ p ∧ p ≤ a.itemCount
    · obtain ⟨items1, hrun, hlen, _⟩ := arrayList_remove_run a p ha0 hc.1 hc.2
      rw [hrun]
      refine ⟨?_, h2, ?_, ?_⟩
      · simp only; omega
      · simp only; omega
      · simp only; omega
    · rw [arrayList_remove_fail a p hc]
      exact ha0
  · refine ⟨h1, h2, le_refl _, ?_⟩
    simp only; omega
  · by_cases hc : 1 ≤ p ∧ p ≤ a.itemCount
    · obtain ⟨x, hrun, _⟩ := arrayList_getEntry_run a p ha0 hc.1 hc.2
      rw [hrun]
      exact ha0
    · rw [arrayList_getEntry_fail a p hc]
      exact ha0
  · by_cases hc : 1 ≤ p ∧ p ≤ a.itemCount
    · rw [arrayList_setEntry_run a p v ha0 hc.1 hc.2]
      refine ⟨?_, h2, h3, h4⟩
      simp only [List.length_set]; exact h1
    · rw [arrayList_setEntry_fail a p v hc]
      exact ha0

theorem arrayList_capacity_invariant_witness :
    (ArrayList.new 64).wf ∧
    (ArrayList.sample.insert 2 (7 : Int)).endsIn ArrayList.wf ∧
    (ArrayList.sample.remove 2).endsIn ArrayList.wf ∧
    ArrayList.sample.clear.endsIn ArrayList.wf ∧
    (ArrayList.sample.getEntry 2).endsIn ArrayList.wf ∧
    (ArrayList.sample.setEntry 2 (7 : Int)).endsIn ArrayList.wf :=
  arrayList_capacity_invariant ArrayList.sample 2 (7 : Int) (by decide)

theorem linkedList_wf_of_toSeq (l : LinkedList) (s : List Int) (hs : l.toSeq = some s) :
    l.wf :=
  (LinkedList.wf_iff l).2 ⟨s, hs⟩

/-- C18: the chain reachable from `headPtr` is null-terminated, visits no node twice and has
exactly `itemCount` nodes. This holds for a fresh LinkedList and, from a state where it
holds, every call of `insert`, `remove`, `clear` and `getEntry`, and every call of `setEntry`
at a valid position, ends without a fault in a state where it holds again. -/
theorem linkedList_chain_invariant (l : LinkedList) (p v : Int) (hl : l.wf) :
    LinkedList.new.wf ∧
    (∃ cs : List (Nat × Int), LinkedList.isSeg l.heap l.headPtr cs none ∧
        (cs.map Prod.fst).Nodup ∧ (cs.length : Int) = l.itemCount) ∧
    (l.insert p v).endsIn LinkedList.wf ∧
    (l.remove p).endsIn LinkedList.wf ∧
    l.clear.endsIn LinkedList.wf ∧
    (l.getEntry p).endsIn LinkedList.wf ∧
    (1 ≤ p → p ≤ l.getLength → (l.setEntry p v).endsIn LinkedList.wf) := by
  obtain ⟨s, hs⟩ := (LinkedList.wf_iff l).1 hl
  have hlen := LinkedList.length_of_toSeq l s hs
  refine ⟨by decide, ?_, ?_, ?_, ?_, ?_, ?_⟩
  · obtain ⟨cs, hseg, _, hcs⟩ := (LinkedList.toSeq_eq_some_iff l s).1 hs
    exact ⟨cs, hseg, LinkedList.isSeg_nodup _ _ _ hseg, hcs⟩
  · by_cases hc : 1 ≤ p ∧ p ≤ l.itemCount + 1
    · obtain ⟨b, hrun, hb, _⟩ :=
        linkedList_insert_run l s p v hs hc.1 (by rw [hlen]; exact hc.2)
      rw [hrun]
      exact linkedList_wf_of_toSeq b _ hb
    · rw [linkedList_insert_fail l p v hc]
      exact hl
  · by_cases hc : 1 ≤ p ∧ p ≤ l.itemCount
    · obtain ⟨b, hrun, hb, _⟩ :=
        linkedList_remove_run l s p hs hc.1 (by rw [hlen]; exact hc.2)
      rw [hrun]
      exact linkedList_wf_of_toSeq b _ hb
    · rw [linkedList_remove_fail l p hc]
      exact hl
  · obtain ⟨b, hb, hhead, hcount⟩ := linkedList_clear_run l hl
    rw [hb]
    exact linkedList_wf_of_toSeq b _ (toSeq_of_empty b hhead hcount)
  · by_cases hc : 1 ≤ p ∧ p ≤ l.itemCount
    · obtain ⟨x, hrun, _⟩ :=
        linkedList_getEntry_run l s p hs hc.1 (by rw [hlen]; exact hc.2)
      rw [hrun]
      exact hl
    · rw [linkedList_getEntry_fail l p hc]
      exact hl
  · intro hp1 hp2
    obtain ⟨b, hrun, hb, _⟩ :=
      linkedList_setEntry_run l s p v hs hp1 (by rw [hlen]; exact hp2)
    rw [hrun]
    exact linkedList_wf_of_toSeq b _ hb

theorem linkedList_chain_invariant_witness :
    LinkedList.new.wf ∧
    (∃ cs : List (Nat × Int),
        LinkedList.isSeg LinkedList.sample.heap LinkedList.sample.headPtr cs none ∧
        (cs.map Prod.fst).Nodup ∧ (cs.length : Int) = LinkedList.sample.itemCount) ∧
    (LinkedList.sample.insert 2 7).endsIn LinkedList.wf ∧
    (LinkedList.sample.remove 2).endsIn LinkedList.wf ∧
    LinkedList.sample.clear.endsIn LinkedList.wf ∧
    (LinkedList.sample.getEntry 2).endsIn LinkedList.wf ∧
    (1 ≤ (2 : Int) → (2 : Int) ≤ LinkedList.sample.getLength →
      (LinkedList.sample.setEntry 2 7).endsIn LinkedList.wf) :=
  linkedList_chain_invariant LinkedList.sample 2 7 (by decide)

/-! ## insertionSort -/

/-- C15 (evaluation of the code): `insertionSort` has an empty body, so the list built by
`insert(1, 10); insert(1, 20)` still holds `[20, 10]` after it, on both backings:
`getEntry(1)` is 20 and `getEntry(2)` is 10, against the assertions
`getEntry(1) == 10` and `getEntry(2) == 20` of the tests, and `isSorted` returns false on the LinkedList. -/
theorem insertionSort_leaves_unsorted :
    (∃ l1 l2 : LinkedList, LinkedList.new.insert 1 10 = .ok true l1 ∧
        l1.insert 1 20 = .ok true l2 ∧ insertionSort l2 = .ok () l2 ∧
        l2.getEntry 1 = .ok 20 l2 ∧ l2.getEntry 2 = .ok 10 l2 ∧
        isSorted l2 = .ok false l2) ∧
    (∃ a1 a2 : ArrayList MIN_ARRAY_SIZE,
        (ArrayList.new MIN_ARRAY_SIZE).insert 1 (10 : Int) = .ok true a1 ∧
        a1.insert 1 (20 : Int) = .ok true a2 ∧ insertionSort a2 = .ok () a2 ∧
        a2.getEntry 1 = .ok 20 a2 ∧ a2.getEntry 2 = .ok 10 a2) := by
  constructor
  · exact ⟨{ heap := [some ⟨10, none⟩], headPtr := some 0, itemCount := 1 },
      { heap := [some ⟨10, none⟩, some ⟨20, some 0⟩], headPtr := some 1, itemCount := 2 },
      by decide, by decide, rfl, by decide, by decide, by decide⟩
  · exact ⟨{ itemCount := 1, maxItems := 64, items := 10 :: List.replicate 63 0 },
      { itemCount := 2, maxItems := 64, items := 20 :: 10 :: List.replicate 62 0 },
      by decide, by decide, rfl, by decide, by decide⟩

/-! ## The two backings side by side -/

theorem arrayList_insert_ok {N : Nat} (a : ArrayList N) (p v : Int) (ha : a.wf)
    (hp1 : 1 ≤ p) (hp2 : p ≤ a.itemCount + 1) (hcap : a.itemCount < a.maxItems) :
    ∃ b : ArrayList N, a.insert p v = .ok true b ∧ b.wf ∧
      b.toSeq = a.toSeq.take (p - 1).toNat ++ [v] ++ a.toSeq.drop (p - 1).toNat := by
  obtain ⟨items2, hrun, hlen, hseq⟩ := arrayList_insert_run a p v ha hp1 hp2 hcap
  obtain ⟨h1, h2, h3, h4⟩ := ha
  refine ⟨_, hrun, ⟨?_, h2, ?_, ?_⟩, hseq⟩
  · simp only; omega
  · simp only; omega
  · simp only; omega

theorem arrayList_remove_ok {N : Nat} (a : ArrayList N) (p : Int) (ha : a.wf)
    (hp1 : 1 ≤ p) (hp2 : p ≤ a.itemCount) :
    ∃ b : ArrayList N, a.remove p = .ok true b ∧ b.wf ∧
      b.toSeq = a.toSeq.eraseIdx (p - 1).toNat := by
  obtain ⟨items1, hrun, hlen, hseq⟩ := arrayList_remove_run a p ha hp1 hp2
  obtain ⟨h1, h2, h3, h4⟩ := ha
  refine ⟨_, hrun, ⟨?_, h2, ?_, ?_⟩, hseq⟩
  · simp only; omega
  · simp only; omega
  · simp only; omega

theorem arrayList_setEntry_ok {N : Nat} (a : ArrayList N) (p v : Int) (ha : a.wf)
    (hp1 : 1 ≤ p) (hp2 : p ≤ a.itemCount) :
    ∃ b : ArrayList N, a.setEntry p v = .ok () b ∧ b.wf ∧
      b.toSeq = a.toSeq.set (p - 1).toNat v := by
  obtain ⟨h1, h2, h3, h4⟩ := ha
  refine ⟨_, arrayList_setEntry_run a p v ⟨h1, h2, h3, h4⟩ hp1 hp2, ⟨?_, h2, h3, h4⟩, ?_⟩
  · simp only [List.length_set]; exact h1
  · simp only [ArrayList.toSeq, List.set_take]
    rfl

/-- One allowed call keeps the two backings in step: same observation, and the LinkedList
again holds the sequence of the ArrayList. -/
theorem step_agree {N : Nat} (a : ArrayList N) (l : LinkedList) (op : Op) (ha : a.wf)
    (hl : l.toSeq = some a.toSeq) (hop : op.allowed a.getLength N = true) :
    (a.step op).1 = (l.step op).1 ∧ (a.step op).2.wf ∧
      (l.step op).2.toSeq = some (a.step op).2.toSeq := by
  have hla := ArrayList.toSeq_length a ha
  have hll := LinkedList.length_of_toSeq l a.toSeq hl
  have hcount : l.itemCount = a.itemCount := by rw [← hll, hla]
  have hmax : a.maxItems = N := ha.2.1
  cases op with
  | isEmpty =>
    refine ⟨?_, ha, hl⟩
    simp [ArrayList.step, LinkedList.step, ArrayList.isEmpty, LinkedList.isEmpty, hcount]
  | getLength =>
    refine ⟨?_, ha, hl⟩
    simp [ArrayList.step, LinkedList.step, ArrayList.getLength, LinkedList.getLength, hcount]
  | insert p v =>
    have hcap : a.itemCount < a.maxItems := by
      simp only [Op.allowed, ArrayList.getLength, decide_eq_true_eq] at hop
      omega
    by_cases hc : 1 ≤ p ∧ p ≤ a.itemCount + 1
    · obtain ⟨b, hb, hbwf, hbseq⟩ := arrayList_insert_ok a p v ha hc.1 hc.2 hcap
      obtain ⟨c, hcr, hcseq, _⟩ :=
        linkedList_insert_run l a.toSeq p v hl hc.1 (by rw [hla]; exact hc.2)
      simp only [ArrayList.step, LinkedList.step, hb, hcr, Outcome.observe]
      exact ⟨trivial, hbwf, by rw [hcseq, hbseq]⟩
    · have hfa := arrayList_insert_fail a p v (fun h => hc ⟨h.1, h.2.1⟩)
      have hfl := linkedList_insert_fail l p v (by rw [hcount]; exact hc)
      simp only [ArrayList.step, LinkedList.step, hfa, hfl, Outcome.observe]
      exact ⟨trivial, ha, hl⟩
  | remove p =>
    by_cases hc : 1 ≤ p ∧ p ≤ a.itemCount
    · obtain ⟨b, hb, hbwf, hbseq⟩ := arrayList_remove_ok a p ha hc.1 hc.2
      obtain ⟨c, hcr, hcseq, _⟩ :=
        linkedList_remove_run l a.toSeq p hl hc.1 (by rw [hla]; exact hc.2)
      simp only [ArrayList.step, LinkedList.step, hb, hcr, Outcome.observe]
      exact ⟨trivial, hbwf, by rw [hcseq, hbseq]⟩
    · have hfa := arrayList_remove_fail a p hc
      have hfl := linkedList_remove_fail l p (by rw [hcount]; exact hc)
      simp only [ArrayList.step, LinkedList.step, hfa, hfl, Outcome.observe]
      exact ⟨trivial, ha, hl⟩
  | clear =>
    obtain ⟨c, hcr, hhead, hc0⟩ :=
      linkedList_clear_run l (linkedList_wf_of_toSeq l _ hl)
    obtain ⟨h1, h2, h3, h4⟩ := ha
    simp only [ArrayList.step, LinkedList.step, ArrayList.clear, hcr, Outcome.observe]
    refine ⟨trivial, ⟨h1, h2, le_refl _, by simp only; omega⟩, ?_⟩
    rw [toSeq_of_empty c hhead hc0]
    simp [ArrayList.toSeq]
  | getEntry p =>
    by_cases hc : 1 ≤ p ∧ p ≤ a.itemCount
    · obtain ⟨x, hx, hxs⟩ := arrayList_getEntry_run a p ha hc.1 hc.2
      obtain ⟨y, hy, hys⟩ :=
        linkedList_getEntry_run l a.toSeq p hl hc.1 (by rw [hla]; exact hc.2)
      have hxy : x = y := by
        rw [hxs] at hys
        exact Option.some.inj hys
      subst hxy
      simp only [ArrayList.step, LinkedList.step, hx, hy, Outcome.observe]
      exact ⟨trivial, ha, hl⟩
    · have hfa := arrayList_getEntry_fail a p hc
      have hfl := linkedList_getEntry_fail l p (by rw [hcount]; exact hc)
      simp only [ArrayList.step, LinkedList.step, hfa, hfl, Outcome.observe]
      exact ⟨trivial, ha, hl⟩
  | setEntry p v =>
    have hc : 1 ≤ p ∧ p ≤ a.itemCount := by
      simpa [Op.allowed, ArrayList.getLength] using hop
    obtain ⟨b, hb, hbwf, hbseq⟩ := arrayList_setEntry_ok a p v ha hc.1 hc.2
    obtain ⟨c, hcr, hcseq, _⟩ :=
      linkedList_setEntry_run l a.toSeq p v hl hc.1 (by rw [hla]; exact hc.2)
    simp only [ArrayList.step, LinkedList.step, hb, hcr, Outcome.observe]
    exact ⟨trivial, hbwf, by rw [hcseq, hbseq]⟩

theorem run_agree {N : Nat} :
    ∀ (ops : List Op) (a : ArrayList N) (l : LinkedList), a.wf → l.toSeq = some a.toSeq →
      a.admissible ops = true →
      (a.run ops).1 = (l.run ops).1 ∧ (l.run ops).2.toSeq = some (a.run ops).2.toSeq := by
  intro ops
  induction ops with
  | nil =>
    intro a l _ hl _
    exact ⟨rfl, hl⟩
  | cons op ops ih =>
    intro a l ha hl hadm
    simp only [ArrayList.admissible, Bool.and_eq_true] at hadm
    obtain ⟨hobs, hwf1, hseq1⟩ := step_agree a l op ha hl hadm.1
    obtain ⟨hrest, hfinal⟩ := ih (a.step op).2 (l.step op).2 hwf1 hseq1 hadm.2
    simp only [ArrayList.run, LinkedList.run]
    exact ⟨by rw [hobs, hrest], hfinal⟩

/-- C19: the two backings are observationally equivalent below capacity. For every finite
sequence of calls of `insert`, `remove`, `clear`, `isEmpty`, `getLength`, `getEntry` and
`setEntry`, applied from the fresh state to an `ArrayList<int, N>` and to a
`LinkedList<int>`, in which every `insert` is made at a length below `N` and every
`setEntry` at a valid position, the two lists give the same observation at every call (the
same boolean, the same value, or the same invalid-argument failure) and end holding the same
sequence. -/
theorem backings_equivalent (N : Nat) (ops : List Op)
    (hadm : (ArrayList.new N).admissible ops = true) :
    ((ArrayList.new N).run ops).1 = (LinkedList.new.run ops).1 ∧
      (LinkedList.new.run ops).2.toSeq = some ((ArrayList.new N).run ops).2.toSeq :=
  run_agree ops (ArrayList.new N) LinkedList.new (arrayList_new_wf N)
    (by simp [LinkedList.toSeq, LinkedList.new, LinkedList.chainFrom, ArrayList.toSeq,
      ArrayList.new]) hadm

theorem backings_equivalent_witness :
    ((ArrayList.new 64).run
        [.insert 1 10, .insert 1 20, .insert 1 30, .remove 2, .getEntry 2, .getEntry 5,
          .setEntry 1 7, .getLength, .clear, .isEmpty]).1 =
      (LinkedList.new.run
        [.insert 1 10, .insert 1 20, .insert 1 30, .remove 2, .getEntry 2, .getEntry 5,
          .setEntry 1 7, .getLength, .clear, .isEmpty]).1 ∧
    (LinkedList.new.run
        [.insert 1 10, .insert 1 20, .insert 1 30, .remove 2, .getEntry 2, .getEntry 5,
          .setEntry 1 7, .getLength, .clear, .isEmpty]).2.toSeq =
      some ((ArrayList.new 64).run
        [.insert 1 10, .insert 1 20, .insert 1 30, .remove 2, .getEntry 2, .getEntry 5,
          .setEntry 1 7, .getLength, .clear, .isEmpty]).2.toSeq :=
  backings_equivalent 64
    [.insert 1 10, .insert 1 20, .insert 1 30, .remove 2, .getEntry 2, .getEntry 5,
      .setEntry 1 7, .getLength, .clear, .isEmpty] (by decide)

/-! ## getNodeAt -/

/-- Walking a segment takes one turn of the loop per node: with fewer turns than the segment
has nodes the loop is still running when the budget ends. -/
theorem getNodeAtLoop_short (h : Heap) :
    ∀ (cs : List (Nat × Int)) (p q : Option Nat) (skip : Int) (fuel : Nat),
      LinkedList.isSeg h p cs q → fuel < cs.length →
      LinkedList.getNodeAtLoop h (skip + cs.length) fuel skip p = .error .fuel := by
  intro cs
  induction cs with
  | nil =>
    intro p q skip fuel _ hfuel
    simp at hfuel
  | cons c cs ih =>
    intro p q skip fuel hseg hfuel
    rw [LinkedList.isSeg_cons] at hseg
    obtain ⟨hp, nx, hc, hrest⟩ := hseg
    subst hp
    have hguard : skip < skip + ((c :: cs).length : Int) := by
      simp only [List.length_cons]; omega
    have hpos : skip + ((c :: cs).length : Int) = (skip + 1) + (cs.length : Int) := by
      simp only [List.length_cons]; omega
    unfold LinkedList.getNodeAtLoop
    rw [if_pos hguard]
    cases fuel with
    | zero => rfl
    | succ fuel =>
      simp only [Node.getNext_live h c.1 _ hc]
      rw [hpos]
      exact ih nx q (skip + 1) fuel hrest (by simpa using hfuel)

theorem getNodeAt_run (l : LinkedList) (s : List Int) (p : Int) (hs : l.toSeq = some s)
    (hp1 : 1 ≤ p) (hp2 : p ≤ l.itemCount) :
    ∃ (a : Nat) (nd : Node), LinkedList.getNodeAt l p = .ok (some a) ∧
      l.heap[a]? = some (some nd) ∧ s[(p - 1).toNat]? = some nd.value ∧
      ∀ fuel : Nat, fuel < (p - 1).toNat →
        LinkedList.getNodeAtLoop l.heap p fuel 1 l.headPtr = .error .fuel := by
  obtain ⟨cs, hseg, hmap, hlen⟩ := (LinkedList.toSeq_eq_some_iff l s).1 hs
  obtain ⟨j, hj⟩ := Int.eq_ofNat_of_zero_le (show 0 ≤ p - 1 by omega)
  obtain ⟨c1, c, c2, hsplit, hc1⟩ := exists_split_at cs j (by omega)
  subst hsplit
  have hp : p = (c1.length : Int) + 1 := by omega
  subst hp
  obtain ⟨r, hs1, hs2⟩ :=
    (LinkedList.isSeg_append l.heap c1 (c :: c2) l.headPtr none).1 hseg
  rw [LinkedList.isSeg_cons] at hs2
  obtain ⟨hr, nx, hc, _⟩ := hs2
  subst hr
  have hk : ((c1.length : Int) + 1 - 1).toNat = c1.length := by omega
  refine ⟨c.1, ⟨c.2, nx⟩, LinkedList.getNodeAt_isSeg l c1 (some c.1) hs1 hp2, hc, ?_, ?_⟩
  · have hk2 : c1.length = (c1.map Prod.snd).length := by simp
    rw [hk, ← hmap, List.map_append, hk2, List.getElem?_append_right (le_refl _)]
    simp
  · intro fuel hfuel
    rw [hk] at hfuel
    have hpos : (c1.length : Int) + 1 = 1 + (c1.length : Int) := by omega
    rw [hpos]
    exact getNodeAtLoop_short l.heap c1 l.headPtr (some c.1) 1 fuel hs1 hfuel

theorem toSeq_alloc (l : LinkedList) (s : List Int) (x : Option Node)
    (hs : l.toSeq = some s) :
    ({ l with heap := l.heap ++ [x] } : LinkedList).toSeq = some s := by
  obtain ⟨cs, hseg, hmap, hlen⟩ := (LinkedList.toSeq_eq_some_iff l s).1 hs
  rw [LinkedList.toSeq_eq_some_iff]
  exact ⟨cs, LinkedList.isSeg_alloc _ _ _ _ _ hseg, hmap, hlen⟩

/-- C20: on a LinkedList whose chain has exactly `itemCount` nodes and holds `s`, for
`1 <= position <= itemCount`, `getNodeAt(position)` passes its assertion, takes exactly
`position - 1` turns of its loop without dereferencing a null link, and returns a pointer to
a live node holding the `position`-th element of `s`. The calls made by `insert` (at
`newPosition - 1`, after the allocation, when `newPosition` is valid and not 1), by `remove`
(at `position - 1`, when `position` is valid and not 1) and by `getEntry` (at a valid
`position`) meet this precondition, and none of the three methods ends in a fault. -/
theorem getNodeAt_safe (l : LinkedList) (s : List Int) (p v : Int) (hs : l.toSeq = some s) :
    ((1 ≤ p ∧ p ≤ l.itemCount) →
        ∃ (a : Nat) (nd : Node), LinkedList.getNodeAt l p = .ok (some a) ∧
          l.heap[a]? = some (some nd) ∧ s[(p - 1).toNat]? = some nd.value ∧
          ∀ fuel : Nat, fuel < (p - 1).toNat →
            LinkedList.getNodeAtLoop l.heap p fuel 1 l.headPtr = .error .fuel) ∧
    ((1 ≤ p ∧ p ≤ l.itemCount + 1 ∧ p ≠ 1) →
        (1 ≤ p - 1 ∧ p - 1 ≤ l.itemCount) ∧
        ∃ a : Nat, LinkedList.getNodeAt
          { l with heap := (l.heap.alloc (Node.create v)).1 } (p - 1) = .ok (some a)) ∧
    ((1 ≤ p ∧ p ≤ l.itemCount ∧ p ≠ 1) →
        (1 ≤ p - 1 ∧ p - 1 ≤ l.itemCount) ∧
        ∃ a : Nat, LinkedList.getNodeAt l (p - 1) = .ok (some a)) ∧
    (∀ f : Fault, l.insert p v ≠ .fault f ∧ l.remove p ≠ .fault f ∧
        l.getEntry p ≠ .fault f) := by
  have hlen := LinkedList.length_of_toSeq l s hs
  refine ⟨?_, ?_, ?_, ?_⟩
  · intro hp
    exact getNodeAt_run l s p hs hp.1 hp.2
  · intro hp
    have hr : 1 ≤ p - 1 ∧ p - 1 ≤ l.itemCount := by omega
    refine ⟨hr, ?_⟩
    obtain ⟨a, nd, hget, _⟩ :=
      getNodeAt_run { l with heap := l.heap ++ [some (Node.create v)] } s (p - 1)
        (toSeq_alloc l s _ hs) hr.1 hr.2
    exact ⟨a, hget⟩
  · intro hp
    have hr : 1 ≤ p - 1 ∧ p - 1 ≤ l.itemCount := by omega
    refine ⟨hr, ?_⟩
    obtain ⟨a, nd, hget, _⟩ := getNodeAt_run l s (p - 1) hs hr.1 hr.2
    exact ⟨a, hget⟩
  · intro f
    refine ⟨?_, ?_, ?_⟩
    · by_cases hc : 1 ≤ p ∧ p ≤ l.itemCount + 1
      · obtain ⟨b, hrun, _, _⟩ :=
          linkedList_insert_run l s p v hs hc.1 (by rw [hlen]; exact hc.2)
        rw [hrun]
        exact fun h => Outcome.noConfusion h
      · rw [linkedList_insert_fail l p v hc]
        exact fun h => Outcome.noConfusion h
    · by_cases hc : 1 ≤ p ∧ p ≤ l.itemCount
      · obtain ⟨b, hrun, _, _⟩ :=
          linkedList_remove_run l s p hs hc.1 (by rw [hlen]; exact hc.2)
        rw [hrun]
        exact fun h => Outcome.noConfusion h
      · rw [linkedList_remove_fail l p hc]
        exact fun h => Outcome.noConfusion h
    · by_cases hc : 1 ≤ p ∧ p ≤ l.itemCount
      · obtain ⟨x, hrun, _⟩ :=
          linkedList_getEntry_run l s p hs hc.1 (by rw [hlen]; exact hc.2)
        rw [hrun]
        exact fun h => Outcome.noConfusion h
      · rw [linkedList_getEntry_fail l p hc]
        exact fun h => Outcome.noConfusion h

theorem getNodeAt_safe_witness :
    ((1 ≤ (3 : Int) ∧ (3 : Int) ≤ LinkedList.sample.itemCount) →
        ∃ (a : Nat) (nd : Node), LinkedList.getNodeAt LinkedList.sample 3 = .ok (some a) ∧
          LinkedList.sample.heap[a]? = some (some nd) ∧
          ([30, 20, 10] : List Int)[((3 : Int) - 1).toNat]? = some nd.value ∧
          ∀ fuel : Nat, fuel < ((3 : Int) - 1).toNat →
            LinkedList.getNodeAtLoop LinkedList.sample.heap 3 fuel 1
              LinkedList.sample.headPtr = .error .fuel) ∧
    ((1 ≤ (3 : Int) ∧ (3 : Int) ≤ LinkedList.sample.itemCount + 1 ∧ (3 : Int) ≠ 1) →
        (1 ≤ (3 : Int) - 1 ∧ (3 : Int) - 1 ≤ LinkedList.sample.itemCount) ∧
        ∃ a : Nat, LinkedList.getNodeAt
          { LinkedList.sample with
            heap := (LinkedList.sample.heap.alloc (Node.create 7)).1 } ((3 : Int) - 1) =
              .ok (some a)) ∧
    ((1 ≤ (3 : Int) ∧ (3 : Int) ≤ LinkedList.sample.itemCount ∧ (3 : Int) ≠ 1) →
        (1 ≤ (3 : Int) - 1 ∧ (3 : Int) - 1 ≤ LinkedList.sample.itemCount) ∧
        ∃ a : Nat, LinkedList.getNodeAt LinkedList.sample ((3 : Int) - 1) = .ok (some a)) ∧
    (∀ f : Fault, LinkedList.sample.insert 3 7 ≠ .fault f ∧
        LinkedList.sample.remove 3 ≠ .fault f ∧ LinkedList.sample.getEntry 3 ≠ .fault f) :=
  getNodeAt_safe LinkedList.sample [30, 20, 10] 3 7 (by decide)

end Lab3
